import Mathlib

/-!
Verification development for the DevScope inverted-index engine
(`src/pythonproto.py`).

Shallow embedding conventions:
* Python byte strings and binary files are `List Nat` (each element a byte value).
* Python text strings are `List Char` (a Python `str` is a sequence of code points).
* Machine integers are `Nat` / `Int`; `struct.pack` fields are serialized with
  explicit little-endian arithmetic (`% 256`, `/ 256`); `struct.pack` raises on
  out-of-range values, so round-trip theorems carry the corresponding bounds as
  hypotheses.
* Fallible operations (strict UTF-8 decoding, `struct.unpack` on short reads,
  dictionary `KeyError`) return `Option`, with `none` for a raised exception.
* Python `float` scores are modelled by a parameter type `K` with a
  `LinearOrderedCommRing` instance, and `math.log10(total_docs / (df + 1))` by a
  parameter function `idf : Nat → Nat → K` applied to `(total_docs, df)`; the
  ranking and filtering claims hold for every instantiation.
* `datetime.strptime(chunk, "%Y-%m-%dT%H:%M:%S")` followed by `.timestamp()` is
  a library call modelled by a parameter `strp : List Char → Option Int`.
* Dictionaries (`dict` / `defaultdict`) are association lists in insertion
  order; lookup takes the last binding (later assignments overwrite).
-/

namespace DevScope

/-! ### Little-endian fields (struct.pack / struct.unpack) -/

/-- Little-endian 2-byte field, `struct.pack` with format character H. -/
def le16 (n : Nat) : List Nat := [n % 256, n / 256 % 256]

/-- Little-endian 4-byte field, `struct.pack` with format character I. -/
def le32 (n : Nat) : List Nat :=
  [n % 256, n / 256 % 256, n / 65536 % 256, n / 16777216 % 256]

/-- Little-endian 8-byte field, `struct.pack` with format character Q. -/
def le64 (n : Nat) : List Nat :=
  [n % 256, n / 256 % 256, n / 65536 % 256, n / 16777216 % 256,
   n / 4294967296 % 256, n / 1099511627776 % 256,
   n / 281474976710656 % 256, n / 72057594037927936 % 256]

/-- Little-endian signed 8-byte field (format character q): two's complement. -/
def le64i (i : Int) : List Nat := le64 ((i % (18446744073709551616 : Int)).toNat)

/-- Decode a 2-byte little-endian field from the head of a byte list. -/
def de16 : List Nat → Nat
  | a :: b :: _ => a + 256 * b
  | [a] => a
  | [] => 0

/-- Decode a 4-byte little-endian field from the head of a byte list. -/
def de32 : List Nat → Nat
  | a :: b :: c :: d :: _ => a + 256 * b + 65536 * c + 16777216 * d
  | [a, b, c] => a + 256 * b + 65536 * c
  | [a, b] => a + 256 * b
  | [a] => a
  | [] => 0

/-- Decode an 8-byte little-endian field from the head of a byte list. -/
def de64 (bs : List Nat) : Nat :=
  de32 bs + 4294967296 * de32 (bs.drop 4)

/-! ### UTF-8 encoding and strict decoding

`str.encode` (UTF-8) of one code point, written with `/` and `%` arithmetic
(equivalent to the usual shift/mask formulation). -/

def utf8EncodeChar (n : Nat) : List Nat :=
  if n < 128 then [n]
  else if n < 2048 then [192 + n / 64, 128 + n % 64]
  else if n < 65536 then [224 + n / 4096, 128 + n / 64 % 64, 128 + n % 64]
  else [240 + n / 262144, 128 + n / 4096 % 64, 128 + n / 64 % 64, 128 + n % 64]

/-- `str.encode("utf-8")` for a Python string. -/
def utf8Encode (s : List Char) : List Nat := s.flatMap (fun c => utf8EncodeChar c.toNat)

/-- Fuelled worker for strict UTF-8 decoding.  Missing continuation bytes are
read as the out-of-range value `256` (via `getD`), which fails the
continuation-byte test exactly as a truncated read does.  Fuel only bounds the
number of decoded characters; the wrapper supplies enough for any input. -/
def utf8DecodeF : Nat → List Nat → Option (List Char)
  | _, [] => some []
  | 0, _ :: _ => none
  | fuel + 1, b :: bs =>
    if b < 128 then (Char.ofNat b :: ·) <$> utf8DecodeF fuel bs
    else if b < 192 then none
    else if b < 224 then
      let b1 := bs.getD 0 256
      if 128 ≤ b1 ∧ b1 < 192 then
        let n := (b - 192) * 64 + (b1 - 128)
        if 128 ≤ n then (Char.ofNat n :: ·) <$> utf8DecodeF fuel (bs.drop 1) else none
      else none
    else if b < 240 then
      let b1 := bs.getD 0 256
      let b2 := bs.getD 1 256
      if (128 ≤ b1 ∧ b1 < 192) ∧ (128 ≤ b2 ∧ b2 < 192) then
        let n := (b - 224) * 4096 + (b1 - 128) * 64 + (b2 - 128)
        if 2048 ≤ n ∧ ¬(55296 ≤ n ∧ n < 57344) then
          (Char.ofNat n :: ·) <$> utf8DecodeF fuel (bs.drop 2)
        else none
      else none
    else
      let b1 := bs.getD 0 256
      let b2 := bs.getD 1 256
      let b3 := bs.getD 2 256
      if (128 ≤ b1 ∧ b1 < 192) ∧ (128 ≤ b2 ∧ b2 < 192) ∧ (128 ≤ b3 ∧ b3 < 192) then
        let n := (b - 240) * 262144 + (b1 - 128) * 4096 + (b2 - 128) * 64 + (b3 - 128)
        if 65536 ≤ n ∧ n < 1114112 then
          (Char.ofNat n :: ·) <$> utf8DecodeF fuel (bs.drop 3)
        else none
      else none

/-- `bytes.decode("utf-8")` with strict error handling: rejects invalid leading
bytes, truncated sequences, bad continuation bytes, overlong encodings,
surrogates and code points above U+10FFFF; `none` models a raised
`UnicodeDecodeError`. -/
def utf8Decode? (bs : List Nat) : Option (List Char) := utf8DecodeF bs.length bs

/-! ### Python string helpers -/

/-- The whitespace class used by `str.split()` and the regex class for
whitespace, restricted to its ASCII members (the inputs of this development
are ASCII). -/
def isPySpace (c : Char) : Bool :=
  c = ' ' || c = '\t' || c = '\n' || c = '\x0b' || c = '\x0c' || c = '\r'

/-- The character class of the leading regex atom in RE_IDENTIFIER and in the
capture group of RE_FUNC_DEF: a-z, A-Z or the underscore (code 95). -/
def isIdentStart (c : Char) : Bool :=
  decide ((97 ≤ c.toNat ∧ c.toNat ≤ 122) ∨ (65 ≤ c.toNat ∧ c.toNat ≤ 90) ∨ c.toNat = 95)

/-- The character class of the regex atoms continuing an identifier:
a-z, A-Z, 0-9 or the underscore. -/
def isIdentChar (c : Char) : Bool :=
  isIdentStart c || decide (48 ≤ c.toNat ∧ c.toNat ≤ 57)

/-- `str.upper()`, faithful on ASCII (the Unicode case map is out of scope). -/
def pyUpper (s : List Char) : List Char := s.map Char.toUpper

/-- `str.lower()`, faithful on ASCII (the Unicode case map is out of scope). -/
def pyLower (s : List Char) : List Char := s.map Char.toLower

/-- Python substring containment, `needle in hay`. -/
def containsSub (needle : List Char) (hay : List Char) : Bool :=
  needle.isPrefixOf hay ||
    match hay with
    | [] => false
    | _ :: t => containsSub needle t

/-- Strict lexicographic order on byte lists (the order of Python `bytes`). -/
def lexLt : List Nat → List Nat → Bool
  | [], [] => false
  | [], _ :: _ => true
  | _ :: _, [] => false
  | a :: as, b :: bs => if a < b then true else if a = b then lexLt as bs else false

/-- Python string comparison: lexicographic on code points. -/
def strLt (s t : List Char) : Bool := lexLt (s.map Char.toNat) (t.map Char.toNat)

/-- The non-strict Python string order used by `sorted`. -/
def strLe (s t : List Char) : Bool := ! strLt t s

/-- Iterating a text-mode file handle yields lines that keep their trailing
newline; the final line without one still counts.  The model takes the file
content after decoding and universal-newline translation. -/
def linesAux : List Char → List Char → List (List Char)
  | [], acc => if acc = [] then [] else [acc.reverse]
  | c :: cs, acc =>
    if c = '\n' then (acc.reverse ++ ['\n']) :: linesAux cs []
    else linesAux cs (c :: acc)

/-- The line sequence of a file content, as `for line in f` produces it. -/
def pyLines (s : List Char) : List (List Char) := linesAux s []

/-- `str.split()` with no arguments: split on whitespace runs, no empties. -/
def splitScanAux : List Char → List Char → List (List Char)
  | [], acc => if acc = [] then [] else [acc.reverse]
  | c :: cs, acc =>
    if isPySpace c then
      if acc = [] then splitScanAux cs [] else acc.reverse :: splitScanAux cs []
    else splitScanAux cs (c :: acc)

def pySplit (s : List Char) : List (List Char) := splitScanAux s []

/-! ### Tokenizer (RE_IDENTIFIER, RE_FUNC_DEF, parse_timestamp, tokenize) -/

def META_IN_FILENAME : Nat := 1
def META_IN_FUNCNAME : Nat := 2
def META_LOG_ERROR : Nat := 4
def META_LOG_WARN : Nat := 8
def DOC_TYPE_CODE : Nat := 0
def DOC_TYPE_LOG : Nat := 1

/-- `RE_IDENTIFIER.finditer(line)`: the non-overlapping matches of
`[a-zA-Z_][a-zA-Z0-9_]*`, scanned left to right, each match greedy.  The
accumulator holds the reversed current run. -/
def identScanAux : List Char → List Char → List (List Char)
  | [], acc => if acc = [] then [] else [acc.reverse]
  | c :: cs, acc =>
    if acc = [] then
      if isIdentStart c then identScanAux cs [c] else identScanAux cs []
    else
      if isIdentChar c then identScanAux cs (c :: acc)
      else acc.reverse :: identScanAux cs []

def identTokens (line : List Char) : List (List Char) := identScanAux line []

/-- The alternation of RE_FUNC_DEF, in the source order of its branches. -/
def funcDefKeywords : List (List Char) :=
  ["func".toList, "def".toList, "function".toList, "class".toList, "struct".toList]

/-- One alternation branch of RE_FUNC_DEF at a fixed start position: the
keyword, then at least one whitespace, then the captured identifier (greedy;
backtracking the greedy whitespace cannot help because no whitespace character
starts an identifier). -/
def tryKeywordAt (s : List Char) (kw : List Char) : Option (List Char) :=
  if kw.isPrefixOf s then
    let rest := s.drop kw.length
    if rest.takeWhile isPySpace = [] then none
    else
      match rest.dropWhile isPySpace with
      | [] => none
      | c :: cs => if isIdentStart c then some (c :: cs.takeWhile isIdentChar) else none
  else none

def tryFuncDefAt (s : List Char) : Option (List Char) :=
  funcDefKeywords.foldl (fun acc kw => acc.or (tryKeywordAt s kw)) none

/-- `RE_FUNC_DEF.search(line)` returning the second capture group: the
leftmost start position wins, branches tried in alternation order. -/
def funcDefSearch : List Char → Option (List Char)
  | [] => none
  | c :: cs => (tryFuncDefAt (c :: cs)).or (funcDefSearch cs)

/-- One emitted occurrence: `(term, line, meta)`. -/
structure Tok where
  term : List Char
  line : Nat
  meta : Nat
deriving DecidableEq, Repr

/-- The function parse_timestamp: take the first 19 characters, replace every
space by T, and hand the chunk to the library parser `strp`, which models
`int(datetime.strptime(chunk, "%Y-%m-%dT%H:%M:%S").timestamp())` and returns
`none` for a ValueError. -/
def parse_timestamp (strp : List Char → Option Int) (line : List Char) : Int :=
  if line.length < 19 then 0
  else
    match strp ((line.take 19).map (fun c => if c = ' ' then 'T' else c)) with
    | some ts => ts
    | none => 0

/-- The per-line update of `(min_ts, max_ts)` for LOG documents. -/
def tsStep (strp : List Char → Option Int) (st : Int × Int) (line : List Char) : Int × Int :=
  let ts := parse_timestamp strp line
  (if ts > 0 ∧ (st.1 = 0 ∨ ts < st.1) then ts else st.1,
   if ts > 0 ∧ ts > st.2 then ts else st.2)

/-- The per-line meta mask: for LOG lines, LOG_ERROR if the uppercased line
contains ERROR, else LOG_WARN if it contains WARN; 0 for CODE lines. -/
def lineMeta (dt : Nat) (line : List Char) : Nat :=
  if dt = DOC_TYPE_LOG then
    let upper := pyUpper line
    if containsSub "ERROR".toList upper then META_LOG_ERROR
    else if containsSub "WARN".toList upper then META_LOG_WARN
    else 0
  else 0

/-- The captured definition name of a CODE line (`func_name`), none for LOG. -/
def lineFuncName (dt : Nat) (line : List Char) : Option (List Char) :=
  if dt = DOC_TYPE_CODE then funcDefSearch line else none

/-- The occurrences emitted from one line. -/
def tokenizeLine (dt : Nat) (lineNum : Nat) (line : List Char) : List Tok :=
  let m := lineMeta dt line
  let fn := lineFuncName dt line
  (identTokens line).map fun t =>
    { term := t, line := lineNum,
      meta := m ||| (if dt = DOC_TYPE_CODE ∧ fn = some t then META_IN_FUNCNAME else 0) }

/-- The occurrences emitted from a list of lines, numbering from `lineNum`. -/
def tokenizeLines (dt : Nat) (lineNum : Nat) : List (List Char) → List Tok
  | [] => []
  | ln :: rest => tokenizeLine dt lineNum ln ++ tokenizeLines dt (lineNum + 1) rest

/-- The function tokenize on a file content (the file has been read already;
the IO-failure branch that returns `([], 0, 0)` is outside the model).  The
source's single loop both emits tokens and updates the timestamp bounds; the
two effects are independent and are modelled as two passes over the same
lines. -/
def tokenize (strp : List Char → Option Int) (content : List Char) (dt : Nat) :
    List Tok × Int × Int :=
  let lines := pyLines content
  (tokenizeLines dt 1 lines,
   if dt = DOC_TYPE_LOG then lines.foldl (tsStep strp) (0, 0) else (0, 0))

/-! ### File classification (os.path.splitext + the extension lists) -/

/-- The suffix of a bare file name from its last dot (dot included), if any. -/
def afterLastDot? : List Char → Option (List Char)
  | [] => none
  | c :: cs =>
    match afterLastDot? cs with
    | some r => some r
    | none => if c = '.' then some (c :: cs) else none

/-- `os.path.splitext(name)[1]` for a bare file name (no path separators):
leading dots never begin an extension. -/
def splitextExt (name : List Char) : List Char :=
  match afterLastDot? (name.dropWhile (· = '.')) with
  | some r => r
  | none => []

def codeExtensions : List (List Char) :=
  [".go".toList, ".py".toList, ".js".toList, ".ts".toList, ".c".toList,
   ".cpp".toList, ".java".toList, ".md".toList, ".txt".toList, ".json".toList]

/-- The classification of the build loop: lowercased extension to document
type, `none` for a skipped file. -/
def classify (fname : List Char) : Option Nat :=
  let ext := pyLower (splitextExt fname)
  if ext = ".log".toList then some DOC_TYPE_LOG
  else if codeExtensions.contains ext then some DOC_TYPE_CODE
  else none

/-! ### Document table and posting accumulator -/

/-- One record of docs.bin, as the indexer writes it. -/
structure DocRec where
  id : Nat
  ty : Nat
  path : List Char
  tmin : Int
  tmax : Int
deriving DecidableEq, Repr

/-- The function write_doc: DocID(4), Type(1), PathLen(2), Path, TMin(8),
TMax(8), all little-endian. -/
def write_doc (d : DocRec) : List Nat :=
  le32 d.id ++ [d.ty % 256] ++ le16 (utf8Encode d.path).length ++ utf8Encode d.path
    ++ le64i d.tmin ++ le64i d.tmax

/-- One accumulator cell: `{'freq': ..., 'pos': [...], 'meta': ...}`. -/
structure PEntry where
  freq : Nat
  pos : List Nat
  meta : Nat
deriving DecidableEq, Repr

def emptyPEntry : PEntry := ⟨0, [], 0⟩

/-- The per-occurrence accumulator update. -/
def bumpEntry (e : PEntry) (ln m : Nat) : PEntry :=
  { freq := e.freq + 1, pos := e.pos ++ [ln], meta := e.meta ||| m }

/-- The inner defaultdict `doc_id → cell`, in insertion order. -/
abbrev DocMap := List (Nat × PEntry)

/-- The outer defaultdict `term → doc_id → cell`, in insertion order. -/
abbrev MemIndex := List (List Char × DocMap)

def bumpDoc : DocMap → Nat → Nat → Nat → DocMap
  | [], did, ln, m => [(did, bumpEntry emptyPEntry ln m)]
  | (d, e) :: rest, did, ln, m =>
    if d = did then (d, bumpEntry e ln m) :: rest
    else (d, e) :: bumpDoc rest did ln m

def bumpMem : MemIndex → List Char → Nat → Nat → Nat → MemIndex
  | [], t, did, ln, m => [(t, bumpDoc [] did ln m)]
  | (t0, dm) :: rest, t, did, ln, m =>
    if t0 = t then (t0, bumpDoc dm did ln m) :: rest
    else (t0, dm) :: bumpMem rest t did ln m

/-- The token loop of the build step for one accepted document. -/
def addToks (mem : MemIndex) (did : Nat) (toks : List Tok) : MemIndex :=
  toks.foldl (fun acc tk => bumpMem acc tk.term did tk.line tk.meta) mem

/-- One walked file handed to the build loop: the joined path written to the
document table, the bare file name used for classification, and the decoded
content. -/
structure WalkFile where
  path : List Char
  fname : List Char
  content : List Char
deriving DecidableEq, Repr

structure BuildState where
  docs : List DocRec
  mem : MemIndex
  nextId : Nat
deriving Repr

def initBuild : BuildState := ⟨[], [], 1⟩

/-- The body of the build loop of the function index for one file: classify,
tokenize, skip empty CODE documents, otherwise write the document record,
feed the accumulator and advance the id counter. -/
def buildStep (strp : List Char → Option Int) (st : BuildState) (w : WalkFile) : BuildState :=
  match classify w.fname with
  | none => st
  | some dt =>
    let tok := tokenize strp w.content dt
    if tok.1 = [] ∧ dt = DOC_TYPE_CODE then st
    else
      { docs := st.docs ++ [⟨st.nextId, dt, w.path, tok.2.1, tok.2.2⟩],
        mem := addToks st.mem st.nextId tok.1,
        nextId := st.nextId + 1 }

/-- The build pass of the function index over the walked files, in walk
order. -/
def buildIndex (strp : List Char → Option Int) (corpus : List WalkFile) : BuildState :=
  corpus.foldl (buildStep strp) initBuild

/-- The acceptance test of the build loop, stated declaratively: the data of
the document record a file contributes, without its id. -/
def acceptEntry (strp : List Char → Option Int) (w : WalkFile) :
    Option (Nat × List Char × Int × Int) :=
  match classify w.fname with
  | none => none
  | some dt =>
    let tok := tokenize strp w.content dt
    if tok.1 = [] ∧ dt = DOC_TYPE_CODE then none
    else some (dt, w.path, tok.2.1, tok.2.2)

/-- Attach consecutive ids starting at `n` to accepted document data. -/
def numberFrom (n : Nat) : List (Nat × List Char × Int × Int) → List DocRec
  | [] => []
  | r :: rs => ⟨n, r.1, r.2.1, r.2.2.1, r.2.2.2⟩ :: numberFrom (n + 1) rs

/-! ### Index writer -/

/-- One posting record: DocID(4), Freq(4), Meta(1), PosCount(4),
Positions(4 each). -/
def postingBytes (did : Nat) (e : PEntry) : List Nat :=
  le32 did ++ le32 e.freq ++ [e.meta % 256] ++ le32 e.pos.length ++ e.pos.flatMap le32

/-- The offset advance the writer counts for one posting: 13 header bytes
plus 4 per position. -/
def postingSize (e : PEntry) : Nat := 13 + 4 * e.pos.length

def regionBytes (dl : DocMap) : List Nat := dl.flatMap fun p => postingBytes p.1 p.2

def regionSize (dl : DocMap) : Nat := (dl.map fun p => postingSize p.2).sum

/-- Generic insertion sort; `sorted` in the source is a stable sort, and a
stable sort with a total preorder is unique, so insertion sort models it. -/
def insertLe (le : α → α → Bool) (a : α) : List α → List α
  | [] => [a]
  | b :: bs => if le a b then a :: b :: bs else b :: insertLe le a bs

def insSort (le : α → α → Bool) : List α → List α
  | [] => []
  | a :: as => insertLe le a (insSort le as)

/-- `sorted(mem_index.keys())` followed by the lookups: the accumulator in
ascending key order. -/
def sortedMem (mem : MemIndex) : MemIndex := insSort (fun a b => strLe a.1 b.1) mem

/-- `sorted(doc_map.keys())` followed by the lookups. -/
def sortDocMap (dm : DocMap) : DocMap := insSort (fun a b => decide (a.1 ≤ b.1)) dm

/-- The posting lists exactly as the writer serializes them: terms in
ascending order, doc ids in ascending order. -/
def writtenPostings (mem : MemIndex) : MemIndex :=
  (sortedMem mem).map fun p => (p.1, sortDocMap p.2)

/-- One lexicon record before serialization (term kept untruncated here;
`lexRecBytes` truncates). -/
structure LexRec where
  term : List Char
  df : Nat
  offset : Nat
deriving DecidableEq, Repr

/-- The serialization loop over terms: emits index.bin and the lexicon
records, threading offset_counter. -/
def writeRegions : MemIndex → Nat → List Nat × List LexRec
  | [], _ => ([], [])
  | (t, dl) :: rest, off =>
    let res := writeRegions rest (off + regionSize dl)
    (regionBytes dl ++ res.1, ⟨t, dl.length, off⟩ :: res.2)

/-- One lexicon.bin record: TermLen(1), Term(≤255 bytes), DocFreq(4),
Offset(8), Padding(4). -/
def lexRecBytes (r : LexRec) : List Nat :=
  let tb := (utf8Encode r.term).take 255
  [tb.length] ++ tb ++ le32 r.df ++ le64 r.offset ++ le32 0

/-- The three artifacts of the function index: docs.bin, index.bin,
lexicon.bin. -/
def indexFiles (strp : List Char → Option Int) (corpus : List WalkFile) :
    List Nat × List Nat × List Nat :=
  let st := buildIndex strp corpus
  let wr := writeRegions (writtenPostings st.mem) 0
  (st.docs.flatMap write_doc, wr.1, wr.2.flatMap lexRecBytes)

/-- The posting lists the function index serializes for a corpus. -/
def builtPostings (strp : List Char → Option Int) (corpus : List WalkFile) : MemIndex :=
  writtenPostings (buildIndex strp corpus).mem

/-- The index.bin content the function index writes for a corpus. -/
def builtIndexBytes (strp : List Char → Option Int) (corpus : List WalkFile) : List Nat :=
  (writeRegions (builtPostings strp corpus) 0).1

/-- The lexicon records the function index writes for a corpus. -/
def builtLexRecs (strp : List Char → Option Int) (corpus : List WalkFile) : List LexRec :=
  (writeRegions (builtPostings strp corpus) 0).2

/-! ### Index reader -/

/-- One loaded document: read_docs keeps id, path and type only (it reads the
16 timestamp bytes but never unpacks them). -/
structure ReadDoc where
  id : Nat
  ty : Nat
  path : List Char
deriving DecidableEq, Repr

/-- Fuelled worker for read_docs; fuel only bounds the number of records and
the wrapper supplies enough for any input.  A non-empty tail shorter than the
7-byte header makes `struct.unpack` raise (`none`); a short path or short
timestamp field does not, because `f.read` returns what is available and the
timestamp bytes are never unpacked. -/
def readDocsF : Nat → List Nat → Option (List (Nat × ReadDoc))
  | _, [] => some []
  | 0, _ :: _ => none
  | fuel + 1, b :: bs =>
    if (b :: bs).length < 7 then none
    else
      let did := de32 (b :: bs)
      let ty := (b :: bs).getD 4 0
      let plen := de16 ((b :: bs).drop 5)
      match utf8Decode? (((b :: bs).drop 7).take plen) with
      | none => none
      | some p =>
        ((did, ⟨did, ty, p⟩) :: ·) <$> readDocsF fuel ((((b :: bs).drop 7).drop plen).drop 16)

/-- The function read_docs, as the association list the Python dict holds in
insertion order (`dictGet?` below looks bindings up with the last one
winning). -/
def read_docs (bs : List Nat) : Option (List (Nat × ReadDoc)) := readDocsF (bs.length + 1) bs

/-- Fuelled worker for read_lexicon.  The term bytes may come short at EOF
(`f.read` is lenient) but the 16 metadata bytes are unpacked and a short read
there raises. -/
def readLexF : Nat → List Nat → Option (List (List Char × Nat × Nat))
  | _, [] => some []
  | 0, _ :: _ => none
  | fuel + 1, b :: bs =>
    match utf8Decode? (bs.take b) with
    | none => none
    | some t =>
      if ((bs.drop b).take 16).length < 16 then none
      else
        let df := de32 ((bs.drop b).take 16)
        let off := de64 (((bs.drop b).take 16).drop 4)
        ((t, df, off) :: ·) <$> readLexF fuel ((bs.drop b).drop 16)

/-- The function read_lexicon: `term → (df, offset)` in insertion order. -/
def read_lexicon (bs : List Nat) : Option (List (List Char × Nat × Nat)) :=
  readLexF (bs.length + 1) bs

/-- One posting as the searcher fetches it: only the first position is kept
(`'line': first_pos`). -/
structure Posting where
  doc_id : Nat
  freq : Nat
  meta : Nat
  line : Nat
deriving DecidableEq, Repr

/-- Worker for get_postings, reading `df` records sequentially.  A header
short of 13 bytes raises; a position area short of the 4 bytes that
`struct.unpack_from` needs for the first position raises; beyond that the
stream is only advanced. -/
def getPostingsF : Nat → List Nat → Option (List Posting)
  | 0, _ => some []
  | df + 1, bs =>
    if bs.length < 13 then none
    else
      let did := de32 bs
      let freq := de32 (bs.drop 4)
      let meta := bs.getD 8 0
      let posCount := de32 (bs.drop 9)
      let posData := (bs.drop 13).take (4 * posCount)
      if 0 < posCount ∧ posData.length < 4 then none
      else
        let first := if 0 < posCount then de32 posData else 0
        ((⟨did, freq, meta, first⟩ : Posting) :: ·) <$>
          getPostingsF df (bs.drop (13 + 4 * posCount))

/-- The function get_postings: seek to `offset`, read `df` records. -/
def get_postings (idxB : List Nat) (offset df : Nat) : Option (List Posting) :=
  getPostingsF df (idxB.drop offset)

/-! ### Query planner and scorer -/

/-- Python dict lookup on an insertion-ordered association list: the last
binding of a key wins. -/
def dictGet? [DecidableEq κ] : List (κ × ν) → κ → Option ν
  | [], _ => none
  | (k, v) :: rest, key =>
    match dictGet? rest key with
    | some r => some r
    | none => if k = key then some v else none

/-- One token of the query string: `ext:` and `level:` set filters (last one
wins), anything else joins the term list. -/
def queryStep (st : Option (List Char) × Option (List Char) × List (List Char))
    (p : List Char) : Option (List Char) × Option (List Char) × List (List Char) :=
  if "ext:".toList.isPrefixOf p then (some (pyLower (p.drop 4)), st.2.1, st.2.2)
  else if "level:".toList.isPrefixOf p then (st.1, some (pyUpper (p.drop 6)), st.2.2)
  else (st.1, st.2.1, st.2.2 ++ [p])

/-- The query planner: `(ext filter, level filter, term list)`. -/
def parseQuery (qs : List Char) : Option (List Char) × Option (List Char) × List (List Char) :=
  (pySplit qs).foldl queryStep (none, none, [])

section Scorer

variable {K : Type} [LinearOrderedCommRing K]

/-- The two defaultdicts `scores` and `matches` are always updated together
at the same key, so they are merged into one insertion-ordered association
list `doc_id → (score, match count)`. -/
abbrev ScoreAcc (K : Type) := List (Nat × K × Nat)

/-- `scores[doc_id] += score; matches[doc_id] += 1`. -/
def bumpAcc : ScoreAcc K → Nat → K → ScoreAcc K
  | [], did, s => [(did, s, 1)]
  | (d, sc, c) :: rest, did, s =>
    if d = did then (d, sc + s, c + 1) :: rest else (d, sc, c) :: bumpAcc rest did s

/-- The ext filter gate: drop when the filter is a non-empty (truthy) string
and the lowercased path does not end with it. -/
def extSkip (extF : Option (List Char)) (path : List Char) : Bool :=
  match extF with
  | none => false
  | some e => decide (e ≠ []) && ! (e.isSuffixOf (pyLower path))

/-- The level filter gate: drop when the filter equals ERROR and the posting
meta lacks LOG_ERROR.  Any other filter value leaves the gate open. -/
def levelSkip (levelF : Option (List Char)) (meta : Nat) : Bool :=
  decide (levelF = some "ERROR".toList) && decide (meta &&& META_LOG_ERROR = 0)

/-- The per-posting contribution `freq * idf` plus the meta boosts. -/
def scoreOf (idfv : K) (p : Posting) : K :=
  (p.freq : K) * idfv
    + (if p.meta &&& META_IN_FILENAME ≠ 0 then 5 else 0)
    + (if p.meta &&& META_IN_FUNCNAME ≠ 0 then 3 else 0)
    + (if p.meta &&& META_LOG_ERROR ≠ 0 then 2 else 0)

/-- The body of the posting loop: look the document up (a missing doc id is a
KeyError), apply the filter gates, accumulate score and match count. -/
def postingStep (docs : List (Nat × ReadDoc)) (idfv : K) (extF levelF : Option (List Char))
    (acc? : Option (ScoreAcc K)) (p : Posting) : Option (ScoreAcc K) :=
  match acc? with
  | none => none
  | some acc =>
    match dictGet? docs p.doc_id with
    | none => none
    | some doc =>
      if extSkip extF doc.path then some acc
      else if levelSkip levelF p.meta then some acc
      else some (bumpAcc acc p.doc_id (scoreOf idfv p))

/-- The body of the term loop: a term missing from the lexicon is skipped,
otherwise its postings are fetched and folded into the accumulator. -/
def termStep (idxB : List Nat) (docs : List (Nat × ReadDoc))
    (lex : List (List Char × Nat × Nat)) (idf : Nat → Nat → K) (total : Nat)
    (extF levelF : Option (List Char)) (acc? : Option (ScoreAcc K)) (t : List Char) :
    Option (ScoreAcc K) :=
  match acc? with
  | none => none
  | some acc =>
    match dictGet? lex t with
    | none => some acc
    | some e =>
      match get_postings idxB e.2 e.1 with
      | none => none
      | some ps => ps.foldl (postingStep docs (idf total e.1) extF levelF) (some acc)

/-- The whole scoring loop of the function search; `total_docs` is the number
of distinct document ids, computed once. -/
def scoreTerms (idxB : List Nat) (docs : List (Nat × ReadDoc))
    (lex : List (List Char × Nat × Nat)) (idf : Nat → Nat → K)
    (extF levelF : Option (List Char)) (terms : List (List Char)) : Option (ScoreAcc K) :=
  terms.foldl
    (termStep idxB docs lex idf ((docs.map Prod.fst).dedup.length) extF levelF) (some [])

/-- The AND reduction: documents whose match count equals the number of query
terms, paired with their scores, in accumulator (insertion) order. -/
def qualList (k : Nat) (acc : ScoreAcc K) : List (Nat × K) :=
  (acc.filter fun e => decide (e.2.2 = k)).map fun e => (e.1, e.2.1)

/-- `results.sort(key=lambda x: x[1], reverse=True)` is a stable descending
sort on the score; its insertion-sort comparison. -/
def rankLe (a b : Nat × K) : Bool := decide (b.2 ≤ a.2)

/-- The ranking order of the result list: strictly higher score first, ties
broken by ascending doc_id. -/
def rankRel (a b : Nat × K) : Prop := b.2 < a.2 ∨ (b.2 = a.2 ∧ a.1 < b.1)

/-- The doc_id keys of the score accumulator, in insertion order. -/
def accKeys (acc : ScoreAcc K) : List Nat := acc.map fun e => e.1

/-- Mid-round qualification test: an accumulator cell can still reach full
match count after this round if it already did (count `r + 1`) or if it has
count `r` and its doc id is among the remaining postings `D`. -/
def qmid (r : Nat) (D : List Nat) (e : Nat × K × Nat) : Bool :=
  decide (e.2.2 = r + 1) || (decide (e.2.2 = r) && decide (e.1 ∈ D))

/-- Invariant holding in the middle of processing one term's posting list:
`r` rounds are complete, `D` is the doc-id list of the remaining postings. -/
def Jmid (r : Nat) (acc : ScoreAcc K) (D : List Nat) : Prop :=
  (accKeys acc).Nodup ∧
  (∀ e ∈ acc, 1 ≤ e.2.2 ∧ e.2.2 ≤ r + 1) ∧
  ((acc.filter (qmid r D)).map (fun e => e.1)).Pairwise (· < ·) ∧
  (∀ e ∈ acc, e.2.2 = r + 1 → ∀ d ∈ D, e.1 < d)

/-- Invariant holding between rounds: after `r` completed rounds, match
counts are between 1 and `r`, and the doc ids of the cells at full count are
strictly ascending in accumulator (insertion) order. -/
def Brounds (r : Nat) (acc : ScoreAcc K) : Prop :=
  (accKeys acc).Nodup ∧
  (∀ e ∈ acc, 1 ≤ e.2.2 ∧ e.2.2 ≤ r) ∧
  ((acc.filter fun e => decide (e.2.2 = r)).map (fun e => e.1)).Pairwise (· < ·)

/-- The observable outcome of the function search once the index directory
exists: an uncaught exception, a bare `return` that prints nothing (the empty
term list), or the header plus the sorted result list (of which the first 10
are printed as result lines). -/
inductive SOutcome (K : Type) where
  | err : SOutcome K
  | noOutput : SOutcome K
  | printed : List (Nat × K) → SOutcome K
deriving DecidableEq

/-- The function search after query parsing. -/
def runSearch (dB lB iB : List Nat) (idf : Nat → Nat → K)
    (extF levelF : Option (List Char)) (terms : List (List Char)) : SOutcome K :=
  match read_docs dB with
  | none => .err
  | some docs =>
    match read_lexicon lB with
    | none => .err
    | some lex =>
      if terms = [] then .noOutput
      else
        match scoreTerms iB docs lex idf extF levelF terms with
        | none => .err
        | some acc => .printed (insSort rankLe (qualList terms.length acc))

/-- The function search on a query string. -/
def search (dB lB iB : List Nat) (idf : Nat → Nat → K) (qs : List Char) : SOutcome K :=
  let q := parseQuery qs
  runSearch dB lB iB idf q.1 q.2.1 q.2.2

/-- The result lines printed below the header: at most the first 10 sorted
results. -/
def displayed : SOutcome K → List (Nat × K)
  | .printed rs => rs.take 10
  | _ => []

end Scorer

/-! ### Concrete sample data used by witnesses and counterexamples -/

/-- A timestamp parser stub: every chunk fails to parse (a ValueError). -/
def strpNone : List Char → Option Int := fun _ => none

def logSample : List Char := "x ERROR\nwarn y\nok\n".toList

def codeSample : List Char := "def foo():\n    foo()\n".toList

def exCorpus7 : List WalkFile :=
  [⟨"r/a.py".toList, "a.py".toList, "!!\n".toList⟩,
   ⟨"r/b.log".toList, "b.log".toList, "".toList⟩,
   ⟨"r/c.py".toList, "c.py".toList, codeSample⟩,
   ⟨"r/huh.xyz".toList, "huh.xyz".toList, "foo\n".toList⟩]

/-- A one-file CODE corpus. -/
def exCorpusA : List WalkFile := [⟨"a.py".toList, "a.py".toList, codeSample⟩]

/-- Two document records that differ only in `tmin`. -/
def docA : DocRec := ⟨1, 0, "a".toList, 0, 0⟩

def docB : DocRec := ⟨1, 0, "a".toList, 1, 0⟩

def exLexRec : LexRec := ⟨"foo".toList, 1, 0⟩

/-- The three artifacts of a one-file CODE corpus, used in concrete search
runs. -/
def exArt : List Nat × List Nat × List Nat :=
  indexFiles strpNone [⟨"a.py".toList, "a.py".toList, codeSample⟩]

/-- A concrete idf stand-in for witness runs (the claims hold for every idf). -/
def idfZ : Nat → Nat → Int := fun _ _ => 0

/-! ### Little-endian field lemmas -/

theorem le16_length (n : Nat) : (le16 n).length = 2 := rfl

theorem le32_length (n : Nat) : (le32 n).length = 4 := rfl

theorem le64_length (n : Nat) : (le64 n).length = 8 := rfl

theorem le64i_length (i : Int) : (le64i i).length = 8 := rfl

theorem de16_le16 (n : Nat) (rest : List Nat) (h : n < 65536) :
    de16 (le16 n ++ rest) = n := by
  simp only [le16, List.cons_append, List.nil_append, de16]
  omega

theorem de32_le32 (n : Nat) (rest : List Nat) (h : n < 4294967296) :
    de32 (le32 n ++ rest) = n := by
  simp only [le32, List.cons_append, List.nil_append, de32]
  omega

theorem de64_le64 (n : Nat) (rest : List Nat) (h : n < 18446744073709551616) :
    de64 (le64 n ++ rest) = n := by
  simp only [le64, de64, List.cons_append, List.nil_append, de32, List.drop_succ_cons,
    List.drop_zero]
  omega

/-! ### UTF-8 lemmas -/

theorem utf8Encode_cons (c : Char) (cs : List Char) :
    utf8Encode (c :: cs) = utf8EncodeChar c.toNat ++ utf8Encode cs := rfl

theorem utf8DecodeF_encodeChar_append (c : Char) (fuel : Nat) (rest : List Nat) :
    utf8DecodeF (fuel + 1) (utf8EncodeChar c.toNat ++ rest) =
      (c :: ·) <$> utf8DecodeF fuel rest := by
  have hv := c.valid
  have hofn : Char.ofNat c.toNat = c := Char.ofNat_toNat c
  rcases hv with h | ⟨h1, h2⟩
  · -- below the surrogate range
    replace h : c.toNat < 55296 := h
    by_cases hlt : c.toNat < 128
    · rw [utf8EncodeChar, if_pos hlt]
      show utf8DecodeF (fuel + 1) (c.toNat :: rest) = _
      rw [utf8DecodeF, if_pos hlt, hofn]
    · by_cases hlt2 : c.toNat < 2048
      · rw [utf8EncodeChar, if_neg hlt, if_pos hlt2]
        show utf8DecodeF (fuel + 1) ((192 + c.toNat / 64) :: (128 + c.toNat % 64) :: rest) = _
        rw [utf8DecodeF]
        rw [if_neg (by omega), if_neg (by omega), if_pos (by omega)]
        simp only [List.getD_cons_zero, List.drop_succ_cons, List.drop_zero]
        rw [if_pos (by omega), if_pos (by omega)]
        have hn : (192 + c.toNat / 64 - 192) * 64 + (128 + c.toNat % 64 - 128) = c.toNat := by
          omega
        rw [hn, hofn]
      · have hlt3 : c.toNat < 65536 := by omega
        rw [utf8EncodeChar, if_neg hlt, if_neg hlt2, if_pos hlt3]
        show utf8DecodeF (fuel + 1) ((224 + c.toNat / 4096) :: (128 + c.toNat / 64 % 64) ::
          (128 + c.toNat % 64) :: rest) = _
        rw [utf8DecodeF]
        rw [if_neg (by omega), if_neg (by omega), if_neg (by omega), if_pos (by omega)]
        simp only [List.getD_cons_zero, List.getD_cons_succ, List.drop_succ_cons, List.drop_zero]
        rw [if_pos (by omega)]
        have hn : (224 + c.toNat / 4096 - 224) * 4096 + (128 + c.toNat / 64 % 64 - 128) * 64 +
            (128 + c.toNat % 64 - 128) = c.toNat := by omega
        rw [hn, if_pos (by omega), hofn]
  · -- above the surrogate range
    replace h1 : 57343 < c.toNat := h1
    replace h2 : c.toNat < 1114112 := h2
    by_cases hlt3 : c.toNat < 65536
    · rw [utf8EncodeChar, if_neg (by omega), if_neg (by omega), if_pos hlt3]
      show utf8DecodeF (fuel + 1) ((224 + c.toNat / 4096) :: (128 + c.toNat / 64 % 64) ::
        (128 + c.toNat % 64) :: rest) = _
      rw [utf8DecodeF]
      rw [if_neg (by omega), if_neg (by omega), if_neg (by omega), if_pos (by omega)]
      simp only [List.getD_cons_zero, List.getD_cons_succ, List.drop_succ_cons, List.drop_zero]
      rw [if_pos (by omega)]
      have hn : (224 + c.toNat / 4096 - 224) * 4096 + (128 + c.toNat / 64 % 64 - 128) * 64 +
          (128 + c.toNat % 64 - 128) = c.toNat := by omega
      rw [hn, if_pos (by omega), hofn]
    · rw [utf8EncodeChar, if_neg (by omega), if_neg (by omega), if_neg hlt3]
      show utf8DecodeF (fuel + 1) ((240 + c.toNat / 262144) :: (128 + c.toNat / 4096 % 64) ::
        (128 + c.toNat / 64 % 64) :: (128 + c.toNat % 64) :: rest) = _
      rw [utf8DecodeF]
      rw [if_neg (by omega), if_neg (by omega), if_neg (by omega), if_neg (by omega)]
      simp only [List.getD_cons_zero, List.getD_cons_succ, List.drop_succ_cons, List.drop_zero]
      rw [if_pos (by omega)]
      have hn : (240 + c.toNat / 262144 - 240) * 262144 + (128 + c.toNat / 4096 % 64 - 128) * 4096 +
          (128 + c.toNat / 64 % 64 - 128) * 64 + (128 + c.toNat % 64 - 128) = c.toNat := by omega
      rw [hn, if_pos (by omega : 65536 ≤ c.toNat ∧ c.toNat < 1114112), hofn]

theorem utf8DecodeF_utf8Encode (s : List Char) :
    ∀ fuel, s.length ≤ fuel → utf8DecodeF fuel (utf8Encode s) = some s := by
  induction s with
  | nil => intro fuel _; cases fuel <;> rfl
  | cons c cs ih =>
    intro fuel hf
    match fuel, hf with
    | fuel + 1, hf =>
      rw [utf8Encode_cons, utf8DecodeF_encodeChar_append, ih fuel (by simpa using hf)]
      rfl

theorem utf8Encode_length_ge (s : List Char) : s.length ≤ (utf8Encode s).length := by
  induction s with
  | nil => simp [utf8Encode]
  | cons c cs ih =>
    rw [utf8Encode_cons, List.length_append]
    have : 1 ≤ (utf8EncodeChar c.toNat).length := by
      rw [utf8EncodeChar]
      split
      · simp
      · split
        · simp
        · split <;> simp
    simp only [List.length_cons]
    omega

/-- Strict UTF-8 decoding is a left inverse of encoding on Python strings. -/
theorem utf8Decode?_utf8Encode (s : List Char) : utf8Decode? (utf8Encode s) = some s :=
  utf8DecodeF_utf8Encode s _ (utf8Encode_length_ge s)

/-! ### Tokenizer lemmas -/

theorem tokenizeLine_mem {dt n : Nat} {ln : List Char} {tok : Tok}
    (h : tok ∈ tokenizeLine dt n ln) :
    tok.line = n ∧ tok.term ∈ identTokens ln ∧
      tok.meta = lineMeta dt ln |||
        (if dt = DOC_TYPE_CODE ∧ lineFuncName dt ln = some tok.term then META_IN_FUNCNAME
         else 0) := by
  simp only [tokenizeLine, List.mem_map] at h
  obtain ⟨t, ht, rfl⟩ := h
  exact ⟨rfl, ht, rfl⟩

theorem tokenizeLines_mem {dt : Nat} {lines : List (List Char)} {tok : Tok} :
    ∀ {i : Nat}, tok ∈ tokenizeLines dt i lines →
      ∃ j, j < lines.length ∧ tok.line = i + j ∧
        tok ∈ tokenizeLine dt (i + j) (lines.getD j []) := by
  induction lines with
  | nil => intro i h; simp [tokenizeLines] at h
  | cons ln rest ih =>
    intro i h
    rw [tokenizeLines] at h
    rcases List.mem_append.mp h with h1 | h2
    · refine ⟨0, by simp, ?_, ?_⟩
      · simpa using (tokenizeLine_mem h1).1
      · simpa using h1
    · obtain ⟨j, hj, hl, hm⟩ := ih h2
      refine ⟨j + 1, by simpa using Nat.succ_lt_succ hj, ?_, ?_⟩
      · omega
      · have harith : i + (j + 1) = (i + 1) + j := by omega
        rw [harith]
        simpa using hm

theorem identScanAux_terms (cs : List Char) :
    ∀ acc, (∀ c ∈ acc, isIdentChar c = true) →
      ∀ t ∈ identScanAux cs acc, t ≠ [] ∧ ∀ c ∈ t, isIdentChar c = true := by
  induction cs with
  | nil =>
    intro acc hacc t ht
    rw [identScanAux] at ht
    split at ht
    · simp at ht
    · next hne =>
      simp only [List.mem_singleton] at ht
      subst ht
      refine ⟨by simpa using hne, ?_⟩
      intro c hc
      exact hacc c (List.mem_reverse.mp hc)
  | cons c cs ih =>
    intro acc hacc t ht
    rw [identScanAux] at ht
    split at ht
    · next hae =>
      split at ht
      · next hs =>
        refine ih [c] ?_ t ht
        intro x hx
        rw [List.mem_singleton] at hx
        subst hx
        simp [isIdentChar, hs]
      · exact ih [] (by simp) t ht
    · next hae =>
      split at ht
      · next hc =>
        refine ih (c :: acc) ?_ t ht
        intro x hx
        rcases List.mem_cons.mp hx with rfl | hx
        · exact hc
        · exact hacc x hx
      · rcases List.mem_cons.mp ht with rfl | ht2
        · refine ⟨by simpa using hae, ?_⟩
          intro x hx
          exact hacc x (List.mem_reverse.mp hx)
        · exact ih [] (by simp) t ht2

theorem identTokens_terms {ln : List Char} {t : List Char} (h : t ∈ identTokens ln) :
    t ≠ [] ∧ ∀ c ∈ t, isIdentChar c = true :=
  identScanAux_terms ln [] (by simp) t h

theorem isIdentChar_ascii {c : Char} (h : isIdentChar c = true) : c.toNat < 128 := by
  simp only [isIdentChar, isIdentStart, Bool.or_eq_true, decide_eq_true_eq] at h
  omega

theorem utf8Encode_ascii {s : List Char} (h : ∀ c ∈ s, c.toNat < 128) :
    utf8Encode s = s.map Char.toNat := by
  induction s with
  | nil => rfl
  | cons c cs ih =>
    rw [utf8Encode_cons, ih (fun x hx => h x (List.mem_cons_of_mem _ hx)), List.map_cons,
      utf8EncodeChar, if_pos (h c (List.mem_cons_self c cs))]
    rfl

/-! ### C8, C9, C10 -/

/-- C8: for every line of a LOG document, every token emitted from that line
carries LOG_ERROR iff the uppercased line contains ERROR, carries LOG_WARN
iff the uppercased line contains WARN and not ERROR, and never carries both
flags at once. -/
theorem C8_log_line_meta (strp : List Char → Option Int) (content : List Char) (tok : Tok)
    (h : tok ∈ (tokenize strp content DOC_TYPE_LOG).1) :
    tok.line - 1 < (pyLines content).length ∧
    ((tok.meta &&& META_LOG_ERROR ≠ 0) ↔
      containsSub "ERROR".toList (pyUpper ((pyLines content).getD (tok.line - 1) [])) = true) ∧
    ((tok.meta &&& META_LOG_WARN ≠ 0) ↔
      (containsSub "WARN".toList (pyUpper ((pyLines content).getD (tok.line - 1) [])) = true ∧
       containsSub "ERROR".toList (pyUpper ((pyLines content).getD (tok.line - 1) [])) = false)) ∧
    ¬(tok.meta &&& META_LOG_ERROR ≠ 0 ∧ tok.meta &&& META_LOG_WARN ≠ 0) := by
  have h' : tok ∈ tokenizeLines DOC_TYPE_LOG 1 (pyLines content) := by
    simpa [tokenize] using h
  obtain ⟨j, hj, hline, hmem⟩ := tokenizeLines_mem h'
  obtain ⟨-, -, hmeta⟩ := tokenizeLine_mem hmem
  have hjj : tok.line - 1 = j := by omega
  rw [hjj]
  refine ⟨hj, ?_⟩
  have hif : (if DOC_TYPE_LOG = DOC_TYPE_CODE ∧
      lineFuncName DOC_TYPE_LOG ((pyLines content).getD j []) = some tok.term then
        META_IN_FUNCNAME else 0) = 0 := by
    rw [if_neg]
    rintro ⟨hc, -⟩
    simp [DOC_TYPE_LOG, DOC_TYPE_CODE] at hc
  rw [hif, Nat.or_zero, lineMeta, if_pos rfl] at hmeta
  by_cases he : containsSub "ERROR".toList (pyUpper ((pyLines content).getD j [])) = true
  · rw [if_pos he] at hmeta
    rw [hmeta]
    refine ⟨?_, ?_, ?_⟩
    · exact ⟨fun _ => he, fun _ => by decide⟩
    · constructor
      · intro hc
        exact absurd (by decide : META_LOG_ERROR &&& META_LOG_WARN = 0) hc
      · rintro ⟨-, hef⟩
        rw [he] at hef
        exact absurd hef (by decide)
    · rintro ⟨-, hc⟩
      exact hc (by decide)
  · rw [if_neg he] at hmeta
    by_cases hw : containsSub "WARN".toList (pyUpper ((pyLines content).getD j [])) = true
    · rw [if_pos hw] at hmeta
      rw [hmeta]
      refine ⟨?_, ?_, ?_⟩
      · constructor
        · intro hc
          exact absurd (by decide : META_LOG_WARN &&& META_LOG_ERROR = 0) hc
        · intro hE
          exact absurd hE he
      · constructor
        · intro _
          exact ⟨hw, by simpa using he⟩
        · intro _
          decide
      · rintro ⟨hc, -⟩
        exact hc (by decide)
    · rw [if_neg hw] at hmeta
      rw [hmeta]
      refine ⟨?_, ?_, ?_⟩
      · constructor
        · intro hc
          exact absurd (by decide : (0 : Nat) &&& META_LOG_ERROR = 0) hc
        · intro hE
          exact absurd hE he
      · constructor
        · intro hc
          exact absurd (by decide : (0 : Nat) &&& META_LOG_WARN = 0) hc
        · rintro ⟨hW, -⟩
          exact absurd hW hw
      · rintro ⟨hc, -⟩
        exact hc (by decide)

theorem lineMeta_code (ln : List Char) : lineMeta DOC_TYPE_CODE ln = 0 := by
  rw [lineMeta, if_neg]
  simp [DOC_TYPE_CODE, DOC_TYPE_LOG]

theorem lineFuncName_code (ln : List Char) :
    lineFuncName DOC_TYPE_CODE ln = funcDefSearch ln := by
  simp [lineFuncName]

/-- C9: a token of a CODE document carries IN_FUNCNAME iff it equals the
identifier captured by RE_FUNC_DEF on its own line; tokens of LOG documents
never carry IN_FUNCNAME. -/
theorem C9_funcname_meta (strp : List Char → Option Int) (content : List Char) (tok : Tok) :
    (tok ∈ (tokenize strp content DOC_TYPE_CODE).1 →
      tok.line - 1 < (pyLines content).length ∧
      ((tok.meta &&& META_IN_FUNCNAME ≠ 0) ↔
        funcDefSearch ((pyLines content).getD (tok.line - 1) []) = some tok.term)) ∧
    (tok ∈ (tokenize strp content DOC_TYPE_LOG).1 → tok.meta &&& META_IN_FUNCNAME = 0) := by
  constructor
  · intro h
    have h' : tok ∈ tokenizeLines DOC_TYPE_CODE 1 (pyLines content) := by
      simpa [tokenize] using h
    obtain ⟨j, hj, hline, hmem⟩ := tokenizeLines_mem h'
    obtain ⟨-, -, hmeta⟩ := tokenizeLine_mem hmem
    have hjj : tok.line - 1 = j := by omega
    rw [hjj]
    refine ⟨hj, ?_⟩
    rw [lineMeta_code, Nat.zero_or, lineFuncName_code] at hmeta
    by_cases hf : funcDefSearch ((pyLines content).getD j []) = some tok.term
    · rw [if_pos ⟨rfl, hf⟩] at hmeta
      rw [hmeta]
      exact ⟨fun _ => hf, fun _ => by decide⟩
    · rw [if_neg (by rintro ⟨-, hc⟩; exact hf hc)] at hmeta
      rw [hmeta]
      constructor
      · intro hc
        exact absurd (by decide : (0 : Nat) &&& META_IN_FUNCNAME = 0) hc
      · intro hc
        exact absurd hc hf
  · intro h
    have h' : tok ∈ tokenizeLines DOC_TYPE_LOG 1 (pyLines content) := by
      simpa [tokenize] using h
    obtain ⟨j, hj, hline, hmem⟩ := tokenizeLines_mem h'
    obtain ⟨-, -, hmeta⟩ := tokenizeLine_mem hmem
    have hif : (if DOC_TYPE_LOG = DOC_TYPE_CODE ∧
        lineFuncName DOC_TYPE_LOG ((pyLines content).getD j []) = some tok.term then
          META_IN_FUNCNAME else 0) = 0 := by
      rw [if_neg]
      rintro ⟨hc, -⟩
      simp [DOC_TYPE_LOG, DOC_TYPE_CODE] at hc
    rw [hif, Nat.or_zero, lineMeta, if_pos rfl] at hmeta
    by_cases he : containsSub "ERROR".toList (pyUpper ((pyLines content).getD j [])) = true
    · rw [if_pos he] at hmeta
      rw [hmeta]
      decide
    · rw [if_neg he] at hmeta
      by_cases hw : containsSub "WARN".toList (pyUpper ((pyLines content).getD j [])) = true
      · rw [if_pos hw] at hmeta
        rw [hmeta]
        decide
      · rw [if_neg hw] at hmeta
        rw [hmeta]
        decide

/-- C10: every emitted term consists only of identifier characters, hence
only of ASCII characters; consequently its UTF-8 encoding is one byte per
character, the 255-byte lexicon truncation cuts between characters, strict
decoding of the truncated bytes succeeds, and Python string order coincides
with byte order of the encodings. -/
theorem C10_ascii_terms (strp : List Char → Option Int) (dt : Nat) (content : List Char)
    (tok tok2 : Tok) (h : tok ∈ (tokenize strp content dt).1)
    (h2 : tok2 ∈ (tokenize strp content dt).1) :
    tok.term ≠ [] ∧
    tok.term.all isIdentChar = true ∧
    tok.term.all (fun c => decide (c.toNat < 128)) = true ∧
    utf8Encode tok.term = tok.term.map Char.toNat ∧
    (utf8Encode tok.term).take 255 = utf8Encode (tok.term.take 255) ∧
    utf8Decode? ((utf8Encode tok.term).take 255) = some (tok.term.take 255) ∧
    strLt tok.term tok2.term = lexLt (utf8Encode tok.term) (utf8Encode tok2.term) := by
  have hterm : ∀ {tk : Tok}, tk ∈ (tokenize strp content dt).1 →
      tk.term ≠ [] ∧ ∀ c ∈ tk.term, isIdentChar c = true := by
    intro tk htk
    have h' : tk ∈ tokenizeLines dt 1 (pyLines content) := by
      simpa [tokenize] using htk
    obtain ⟨j, hj, hline, hmem⟩ := tokenizeLines_mem h'
    exact identTokens_terms (tokenizeLine_mem hmem).2.1
  obtain ⟨hne, hall⟩ := hterm h
  obtain ⟨-, hall2⟩ := hterm h2
  have hascii : ∀ c ∈ tok.term, c.toNat < 128 := fun c hc => isIdentChar_ascii (hall c hc)
  have hascii2 : ∀ c ∈ tok2.term, c.toNat < 128 := fun c hc => isIdentChar_ascii (hall2 c hc)
  have henc : utf8Encode tok.term = tok.term.map Char.toNat := utf8Encode_ascii hascii
  have henc2 : utf8Encode tok2.term = tok2.term.map Char.toNat := utf8Encode_ascii hascii2
  have htake : (utf8Encode tok.term).take 255 = utf8Encode (tok.term.take 255) := by
    rw [henc, ← List.map_take,
      utf8Encode_ascii (fun c hc => hascii c (List.mem_of_mem_take hc))]
  refine ⟨hne, ?_, ?_, henc, htake, ?_, ?_⟩
  · rw [List.all_eq_true]
    exact hall
  · rw [List.all_eq_true]
    intro c hc
    exact decide_eq_true (hascii c hc)
  · rw [htake]
    exact utf8Decode?_utf8Encode _
  · rw [henc, henc2]
    rfl

/-! ### Build loop lemmas and C7 -/

theorem buildStep_of_acceptEntry_none {strp : List Char → Option Int} {w : WalkFile}
    (h : acceptEntry strp w = none) (st : BuildState) : buildStep strp st w = st := by
  rw [acceptEntry] at h
  rw [buildStep]
  cases hc : classify w.fname with
  | none => rfl
  | some dt =>
    rw [hc] at h
    simp only at h
    split at h
    · next hskip =>
      simp only []
      rw [if_pos hskip]
    · exact absurd h (by simp)

theorem buildStep_of_acceptEntry_some {strp : List Char → Option Int} {w : WalkFile}
    {r : Nat × List Char × Int × Int} (h : acceptEntry strp w = some r) (st : BuildState) :
    buildStep strp st w =
      { docs := st.docs ++ [⟨st.nextId, r.1, r.2.1, r.2.2.1, r.2.2.2⟩],
        mem := addToks st.mem st.nextId (tokenize strp w.content r.1).1,
        nextId := st.nextId + 1 } := by
  rw [acceptEntry] at h
  rw [buildStep]
  cases hc : classify w.fname with
  | none => rw [hc] at h; exact absurd h (by simp)
  | some dt =>
    rw [hc] at h
    simp only at h
    split at h
    · next hskip => exact absurd h (by simp)
    · next hskip =>
      simp only []
      rw [if_neg hskip]
      obtain rfl : (dt, w.path, (tokenize strp w.content dt).2.1,
          (tokenize strp w.content dt).2.2) = r := by simpa using h
      rfl

theorem foldl_buildStep_docs (strp : List Char → Option Int) (corpus : List WalkFile) :
    ∀ st : BuildState,
      (corpus.foldl (buildStep strp) st).docs =
        st.docs ++ numberFrom st.nextId (corpus.filterMap (acceptEntry strp)) ∧
      (corpus.foldl (buildStep strp) st).nextId =
        st.nextId + (corpus.filterMap (acceptEntry strp)).length := by
  induction corpus with
  | nil => intro st; simp [numberFrom]
  | cons w rest ih =>
    intro st
    rw [List.foldl_cons, List.filterMap_cons]
    cases ha : acceptEntry strp w with
    | none =>
      rw [buildStep_of_acceptEntry_none ha]
      exact ih st
    | some r =>
      rw [buildStep_of_acceptEntry_some ha]
      obtain ⟨hd, hn⟩ := ih
        { docs := st.docs ++ [⟨st.nextId, r.1, r.2.1, r.2.2.1, r.2.2.2⟩],
          mem := addToks st.mem st.nextId (tokenize strp w.content r.1).1,
          nextId := st.nextId + 1 }
      refine ⟨?_, ?_⟩
      · rw [hd]
        simp only [numberFrom, List.append_assoc, List.singleton_append]
      · rw [hn]
        simp only [List.length_cons]
        omega

theorem numberFrom_map_id (l : List (Nat × List Char × Int × Int)) :
    ∀ n, (numberFrom n l).map DocRec.id = List.range' n l.length := by
  induction l with
  | nil => intro n; rfl
  | cons r rs ih =>
    intro n
    rw [numberFrom, List.map_cons, ih (n + 1), List.length_cons, List.range'_succ]

/-- C7: document ids are assigned densely from 1 in acceptance order; a CODE
file with zero tokens is rejected (no record, no id consumed); a LOG file is
accepted even with zero tokens. -/
theorem C7_doc_ids (strp : List Char → Option Int) (corpus : List WalkFile) :
    (buildIndex strp corpus).docs = numberFrom 1 (corpus.filterMap (acceptEntry strp)) ∧
    (buildIndex strp corpus).docs.map DocRec.id =
      List.range' 1 (corpus.filterMap (acceptEntry strp)).length ∧
    (∀ w : WalkFile, classify w.fname = some DOC_TYPE_CODE →
      (tokenize strp w.content DOC_TYPE_CODE).1 = [] → acceptEntry strp w = none) ∧
    (∀ w : WalkFile, classify w.fname = some DOC_TYPE_LOG →
      (acceptEntry strp w).isSome = true) := by
  obtain ⟨hd, -⟩ := foldl_buildStep_docs strp corpus initBuild
  have hdocs : (buildIndex strp corpus).docs =
      numberFrom 1 (corpus.filterMap (acceptEntry strp)) := by
    rw [buildIndex, hd]
    rfl
  refine ⟨hdocs, ?_, ?_, ?_⟩
  · rw [hdocs, numberFrom_map_id]
  · intro w hc he
    simp [acceptEntry, hc, he]
  · intro w hc
    simp [acceptEntry, hc, DOC_TYPE_LOG, DOC_TYPE_CODE]

theorem C7_witness :
    (buildIndex strpNone exCorpus7).docs =
      numberFrom 1 (exCorpus7.filterMap (acceptEntry strpNone)) ∧
    acceptEntry strpNone ⟨"r/a.py".toList, "a.py".toList, "!!\n".toList⟩ = none ∧
    (acceptEntry strpNone ⟨"r/b.log".toList, "b.log".toList, "".toList⟩).isSome = true :=
  ⟨(C7_doc_ids strpNone exCorpus7).1,
   (C7_doc_ids strpNone exCorpus7).2.2.1 _ (by decide) (by decide),
   (C7_doc_ids strpNone exCorpus7).2.2.2 _ (by decide)⟩

theorem C8_witness :
    (⟨"x".toList, 1, 4⟩ : Tok) ∈ (tokenize strpNone logSample DOC_TYPE_LOG).1 ∧
    ((1 : Nat) - 1 < (pyLines logSample).length ∧
     (((4 : Nat) &&& META_LOG_ERROR ≠ 0) ↔
       containsSub "ERROR".toList (pyUpper ((pyLines logSample).getD (1 - 1) [])) = true) ∧
     (((4 : Nat) &&& META_LOG_WARN ≠ 0) ↔
       (containsSub "WARN".toList (pyUpper ((pyLines logSample).getD (1 - 1) [])) = true ∧
        containsSub "ERROR".toList (pyUpper ((pyLines logSample).getD (1 - 1) [])) = false)) ∧
     ¬((4 : Nat) &&& META_LOG_ERROR ≠ 0 ∧ (4 : Nat) &&& META_LOG_WARN ≠ 0)) :=
  ⟨by decide, C8_log_line_meta strpNone logSample ⟨"x".toList, 1, 4⟩ (by decide)⟩

theorem C9_witness :
    (1 : Nat) - 1 < (pyLines codeSample).length ∧
    (((2 : Nat) &&& META_IN_FUNCNAME ≠ 0) ↔
      funcDefSearch ((pyLines codeSample).getD ((1 : Nat) - 1) []) = some "foo".toList) :=
  (C9_funcname_meta strpNone codeSample ⟨"foo".toList, 1, 2⟩).1 (by decide)

theorem C10_witness :
    "foo".toList ≠ [] ∧
    "foo".toList.all isIdentChar = true ∧
    "foo".toList.all (fun c => decide (c.toNat < 128)) = true ∧
    utf8Encode "foo".toList = "foo".toList.map Char.toNat ∧
    (utf8Encode "foo".toList).take 255 = utf8Encode ("foo".toList.take 255) ∧
    utf8Decode? ((utf8Encode "foo".toList).take 255) = some ("foo".toList.take 255) ∧
    strLt "foo".toList "def".toList = lexLt (utf8Encode "foo".toList) (utf8Encode "def".toList) :=
  C10_ascii_terms strpNone DOC_TYPE_CODE codeSample ⟨"foo".toList, 1, 2⟩ ⟨"def".toList, 1, 0⟩
    (by decide) (by decide)

/-! ### Reader round trips (C2) -/

theorem readDocsF_write_doc (fuel : Nat) (d : DocRec) (rest : List Nat)
    (hid : d.id < 4294967296) (hty : d.ty < 256)
    (hlen : (utf8Encode d.path).length < 65536) :
    readDocsF (fuel + 1) (write_doc d ++ rest) =
      ((d.id, ⟨d.id, d.ty, d.path⟩) :: ·) <$> readDocsF fuel rest := by
  have hdec := utf8Decode?_utf8Encode d.path
  rw [write_doc]
  simp only [le16, le32, le64i, le64, List.cons_append, List.nil_append, List.append_assoc]
  rw [readDocsF]
  rw [if_neg (by simp only [List.length_cons, List.length_append]; omega)]
  simp only [de32, de16, List.getD_cons_zero, List.getD_cons_succ, List.drop_succ_cons,
    List.drop_zero]
  have hplen : (utf8Encode d.path).length % 256 +
      256 * ((utf8Encode d.path).length / 256 % 256) = (utf8Encode d.path).length := by omega
  rw [hplen, List.take_left, hdec]
  simp only []
  have hdid : d.id % 256 + 256 * (d.id / 256 % 256) + 65536 * (d.id / 65536 % 256) +
      16777216 * (d.id / 16777216 % 256) = d.id := by omega
  rw [hdid, Nat.mod_eq_of_lt hty, List.drop_left]
  simp only [List.cons_append, List.drop_succ_cons, List.drop_zero]

theorem readDocsF_flatMap (ds : List DocRec)
    (hb : ∀ d ∈ ds, d.id < 4294967296 ∧ d.ty < 256 ∧ (utf8Encode d.path).length < 65536) :
    ∀ fuel, ds.length ≤ fuel →
      readDocsF fuel (ds.flatMap write_doc) =
        some (ds.map fun d => (d.id, ⟨d.id, d.ty, d.path⟩)) := by
  induction ds with
  | nil => intro fuel _; cases fuel <;> rfl
  | cons d ds ih =>
    intro fuel hf
    match fuel, hf with
    | fuel + 1, hf =>
      rw [List.flatMap_cons,
        readDocsF_write_doc fuel d _ (hb d (by simp)).1 (hb d (by simp)).2.1
          (hb d (by simp)).2.2,
        ih (fun x hx => hb x (by simp [hx])) fuel (by simpa using hf)]
      rfl

theorem write_doc_length (d : DocRec) :
    (write_doc d).length = 23 + (utf8Encode d.path).length := by
  simp only [write_doc, le16, le32, le64i, le64, List.length_append, List.length_cons,
    List.length_nil]
  omega

theorem flatMap_write_doc_length_ge (ds : List DocRec) :
    ds.length ≤ (ds.flatMap write_doc).length := by
  induction ds with
  | nil => simp
  | cons d ds ih =>
    rw [List.flatMap_cons, List.length_append, write_doc_length, List.length_cons]
    omega

theorem readLexF_lexRecBytes (fuel : Nat) (r : LexRec) (rest : List Nat)
    (hterm : (utf8Encode r.term).length ≤ 255) (hdf : r.df < 4294967296)
    (hoff : r.offset < 18446744073709551616) :
    readLexF (fuel + 1) (lexRecBytes r ++ rest) =
      ((r.term, r.df, r.offset) :: ·) <$> readLexF fuel rest := by
  have htake : (utf8Encode r.term).take 255 = utf8Encode r.term :=
    List.take_of_length_le hterm
  have hdec := utf8Decode?_utf8Encode r.term
  rw [lexRecBytes]
  simp only [htake, le32, le64, List.cons_append, List.nil_append, List.singleton_append,
    List.append_assoc]
  rw [readLexF, List.take_left, hdec]
  simp only []
  rw [List.drop_left]
  simp only [List.cons_append, List.take_succ_cons, List.take_zero, List.drop_succ_cons,
    List.drop_zero]
  rw [if_neg (by simp)]
  simp only [de64, de32, List.drop_succ_cons, List.drop_zero]
  have hdf2 : r.df % 256 + 256 * (r.df / 256 % 256) + 65536 * (r.df / 65536 % 256) +
      16777216 * (r.df / 16777216 % 256) = r.df := by omega
  have hoff2 : r.offset / 4294967296 % 256 + 256 * (r.offset / 1099511627776 % 256) +
      65536 * (r.offset / 281474976710656 % 256) +
      16777216 * (r.offset / 72057594037927936 % 256) = r.offset / 4294967296 := by omega
  have hoff3 : r.offset % 256 + 256 * (r.offset / 256 % 256) +
      65536 * (r.offset / 65536 % 256) + 16777216 * (r.offset / 16777216 % 256) +
      4294967296 * (r.offset / 4294967296) = r.offset := by omega
  rw [hdf2, hoff2, hoff3]

theorem readLexF_flatMap (ls : List LexRec)
    (hb : ∀ r ∈ ls, (utf8Encode r.term).length ≤ 255 ∧ r.df < 4294967296 ∧
      r.offset < 18446744073709551616) :
    ∀ fuel, ls.length ≤ fuel →
      readLexF fuel (ls.flatMap lexRecBytes) =
        some (ls.map fun r => (r.term, r.df, r.offset)) := by
  induction ls with
  | nil => intro fuel _; cases fuel <;> rfl
  | cons r ls ih =>
    intro fuel hf
    match fuel, hf with
    | fuel + 1, hf =>
      rw [List.flatMap_cons,
        readLexF_lexRecBytes fuel r _ (hb r (by simp)).1 (hb r (by simp)).2.1
          (hb r (by simp)).2.2,
        ih (fun x hx => hb x (by simp [hx])) fuel (by simpa using hf)]
      rfl

theorem lexRecBytes_length_ge (r : LexRec) : 1 ≤ (lexRecBytes r).length := by
  simp [lexRecBytes, le32, le64]

theorem flatMap_lexRecBytes_length_ge (ls : List LexRec) :
    ls.length ≤ (ls.flatMap lexRecBytes).length := by
  induction ls with
  | nil => simp
  | cons r ls ih =>
    rw [List.flatMap_cons, List.length_append, List.length_cons]
    have := lexRecBytes_length_ge r
    omega

/-- C2 counterexample: two document tables that differ only in `t_min` load
to identical results, because read_docs reads but never decodes the 16
timestamp bytes; so loading does not return the written documents field for
field. -/
theorem C2_counterexample :
    read_docs ([docA].flatMap write_doc) = read_docs ([docB].flatMap write_doc) ∧
      docA ≠ docB := by decide

/-- C2 amended: loading docs.bin returns exactly the written documents keyed
by doc_id with id, type and path preserved (the t_min and t_max bytes are
skipped by the reader and not returned); the lexicon round-trips
(term, df, offset) exactly, for terms whose encoding fits the 255-byte
limit. -/
theorem C2_roundtrip (ds : List DocRec) (ls : List LexRec)
    (hd : ∀ d ∈ ds, d.id < 4294967296 ∧ d.ty < 256 ∧ (utf8Encode d.path).length < 65536)
    (hl : ∀ r ∈ ls, (utf8Encode r.term).length ≤ 255 ∧ r.df < 4294967296 ∧
      r.offset < 18446744073709551616) :
    read_docs (ds.flatMap write_doc) =
      some (ds.map fun d => (d.id, ⟨d.id, d.ty, d.path⟩)) ∧
    read_lexicon (ls.flatMap lexRecBytes) =
      some (ls.map fun r => (r.term, r.df, r.offset)) := by
  constructor
  · exact readDocsF_flatMap ds hd _ (by have := flatMap_write_doc_length_ge ds; omega)
  · exact readLexF_flatMap ls hl _ (by have := flatMap_lexRecBytes_length_ge ls; omega)

theorem C2_witness :
    (∀ d ∈ [docA], d.id < 4294967296 ∧ d.ty < 256 ∧ (utf8Encode d.path).length < 65536) ∧
    read_docs ([docA].flatMap write_doc) = some [(1, ⟨1, 0, "a".toList⟩)] ∧
    read_lexicon ([exLexRec].flatMap lexRecBytes) = some [("foo".toList, 1, 0)] :=
  ⟨by decide,
   (C2_roundtrip [docA] [exLexRec] (by decide) (by decide)).1,
   (C2_roundtrip [docA] [exLexRec] (by decide) (by decide)).2⟩

/-! ### C3: empty term list -/

/-- C3 amended: once the index artifacts load, a query whose term list is
empty makes the function search return before printing anything: no error,
but also no header line and no result lines (the source returns before the
`Found ... results.` print). -/
theorem C3_empty_terms {K : Type} [LinearOrderedCommRing K] (dB lB iB : List Nat)
    (idf : Nat → Nat → K) (qs : List Char) (docs : List (Nat × ReadDoc))
    (lex : List (List Char × Nat × Nat))
    (hdocs : read_docs dB = some docs) (hlex : read_lexicon lB = some lex)
    (hterms : (parseQuery qs).2.2 = []) :
    search dB lB iB idf qs = SOutcome.noOutput := by
  rw [search]
  rw [runSearch, hdocs]
  simp only []
  rw [hlex]
  simp only []
  rw [if_pos hterms]

/-- C3 counterexample: for the query string `level:ERROR` (no terms), the
function search produces no output at all; in particular it does not print
the `Found 0 results.` header the claim asserts. -/
theorem C3_counterexample :
    search exArt.1 exArt.2.2 exArt.2.1 idfZ "level:ERROR".toList = SOutcome.noOutput ∧
    search exArt.1 exArt.2.2 exArt.2.1 idfZ "level:ERROR".toList ≠
      SOutcome.printed ([] : List (Nat × Int)) := by
  constructor
  · decide
  · decide

theorem C3_witness :
    (read_docs exArt.1 = some [(1, ⟨1, 0, "a.py".toList⟩)] ∧
     read_lexicon exArt.2.2 = some [("def".toList, 1, 0), ("foo".toList, 1, 17)] ∧
     (parseQuery "ext:.py level:WARN".toList).2.2 = []) ∧
    search exArt.1 exArt.2.2 exArt.2.1 idfZ "ext:.py level:WARN".toList =
      SOutcome.noOutput :=
  ⟨⟨by decide, by decide, by decide⟩,
   C3_empty_terms exArt.1 exArt.2.2 exArt.2.1 idfZ "ext:.py level:WARN".toList
     [(1, ⟨1, 0, "a.py".toList⟩)] [("def".toList, 1, 0), ("foo".toList, 1, 17)]
     (by decide) (by decide) (by decide)⟩

/-! ### C1: the level filter for values other than ERROR -/

theorem levelSkip_of_ne (v : List Char) (hv : v ≠ "ERROR".toList) (m : Nat) :
    levelSkip (some v) m = levelSkip none m := by
  simp only [levelSkip]
  have h1 : decide (some v = some "ERROR".toList) = false :=
    decide_eq_false (by simpa using hv)
  have h2 : decide ((none : Option (List Char)) = some "ERROR".toList) = false := by decide
  rw [h1, h2]

/-- C1 corrected: a level filter set to any value other than ERROR is a
no-op: the whole search behaves exactly as if no level filter were given,
and the query does not abort.  (It does not match nothing.) -/
theorem C1_level_filter_noop {K : Type} [LinearOrderedCommRing K] (dB lB iB : List Nat)
    (idf : Nat → Nat → K) (extF : Option (List Char)) (v : List Char)
    (terms : List (List Char)) (hv : v ≠ "ERROR".toList) :
    runSearch dB lB iB idf extF (some v) terms = runSearch dB lB iB idf extF none terms := by
  have hps : ∀ (docs : List (Nat × ReadDoc)) (idfv : K),
      postingStep docs idfv extF (some v) = postingStep docs idfv extF none := by
    intro docs idfv
    funext acc? p
    cases acc? with
    | none => rfl
    | some acc =>
      rw [postingStep, postingStep]
      cases dictGet? docs p.doc_id with
      | none => rfl
      | some doc =>
        simp only []
        rw [levelSkip_of_ne v hv]
  have hts : ∀ (docs : List (Nat × ReadDoc)) (lex : List (List Char × Nat × Nat))
      (total : Nat),
      termStep iB docs lex idf total extF (some v) =
        termStep iB docs lex idf total extF none := by
    intro docs lex total
    funext acc? t
    cases acc? with
    | none => rfl
    | some acc =>
      rw [termStep, termStep]
      cases dictGet? lex t with
      | none => rfl
      | some e =>
        simp only []
        cases get_postings iB e.2 e.1 with
        | none => rfl
        | some ps =>
          simp only []
          rw [hps]
  rw [runSearch, runSearch]
  cases read_docs dB with
  | none => rfl
  | some docs =>
    simp only []
    cases read_lexicon lB with
    | none => rfl
    | some lex =>
      simp only []
      split
      · rfl
      · rw [scoreTerms, scoreTerms, hts]

/-- C1 counterexample: with the level filter set to INFO, a posting without
LOG_ERROR still passes the gate, so the result set is not empty. -/
theorem C1_counterexample :
    search exArt.1 exArt.2.2 exArt.2.1 idfZ "foo level:INFO".toList =
      SOutcome.printed [(1, (3 : Int))] ∧
    SOutcome.printed [(1, (3 : Int))] ≠ SOutcome.printed ([] : List (Nat × Int)) := by
  constructor
  · decide
  · decide

theorem C1_witness :
    "INFO".toList ≠ "ERROR".toList ∧
    runSearch exArt.1 exArt.2.2 exArt.2.1 idfZ none (some "INFO".toList) ["foo".toList] =
      runSearch exArt.1 exArt.2.2 exArt.2.1 idfZ none none ["foo".toList] :=
  ⟨by decide,
   C1_level_filter_noop exArt.1 exArt.2.2 exArt.2.1 idfZ none "INFO".toList ["foo".toList]
     (by decide)⟩

/-! ### Insertion sort lemmas -/

theorem insertLe_perm (le : α → α → Bool) (a : α) (l : List α) :
    (insertLe le a l).Perm (a :: l) := by
  induction l with
  | nil => exact List.Perm.refl _
  | cons b bs ih =>
    rw [insertLe]
    split
    · exact List.Perm.refl _
    · exact List.Perm.trans (List.Perm.cons b ih) (List.Perm.swap a b bs)

theorem insSort_perm (le : α → α → Bool) (l : List α) : (insSort le l).Perm l := by
  induction l with
  | nil => exact List.Perm.refl _
  | cons a as ih =>
    rw [insSort]
    exact List.Perm.trans (insertLe_perm le a (insSort le as)) (List.Perm.cons a ih)

theorem insertLe_pairwise (le : α → α → Bool)
    (htot : ∀ x y, le x y = true ∨ le y x = true)
    (htr : ∀ x y z, le x y = true → le y z = true → le x z = true)
    (a : α) (l : List α) (hl : l.Pairwise fun x y => le x y = true) :
    (insertLe le a l).Pairwise fun x y => le x y = true := by
  induction l with
  | nil => simp [insertLe]
  | cons b bs ih =>
    rw [insertLe]
    rcases List.pairwise_cons.mp hl with ⟨hb, hbs⟩
    split
    · next hab =>
      refine List.pairwise_cons.mpr ⟨?_, hl⟩
      intro x hx
      rcases List.mem_cons.mp hx with rfl | hx
      · exact hab
      · exact htr a b x hab (hb x hx)
    · next hab =>
      have hba : le b a = true := (htot a b).resolve_left hab
      refine List.pairwise_cons.mpr ⟨?_, ih hbs⟩
      intro x hx
      have hx2 : x = a ∨ x ∈ bs := by
        simpa using (insertLe_perm le a bs).mem_iff.mp hx
      rcases hx2 with rfl | hx2
      · exact hba
      · exact hb x hx2

theorem insSort_pairwise (le : α → α → Bool)
    (htot : ∀ x y, le x y = true ∨ le y x = true)
    (htr : ∀ x y z, le x y = true → le y z = true → le x z = true)
    (l : List α) : (insSort le l).Pairwise fun x y => le x y = true := by
  induction l with
  | nil => simp [insSort]
  | cons a as ih =>
    rw [insSort]
    exact insertLe_pairwise le htot htr a (insSort le as) ih

/-! ### Lexicographic order lemmas -/

theorem lexLt_trans : ∀ (a b c : List Nat),
    lexLt a b = true → lexLt b c = true → lexLt a c = true
  | [], b, c => by
    intro h1 h2
    cases b with
    | nil => simp [lexLt] at h1
    | cons y ys =>
      cases c with
      | nil => simp [lexLt] at h2
      | cons z zs => simp [lexLt]
  | x :: xs, b, c => by
    intro h1 h2
    cases b with
    | nil => simp [lexLt] at h1
    | cons y ys =>
      cases c with
      | nil => simp [lexLt] at h2
      | cons z zs =>
        rw [lexLt] at h1 h2 ⊢
        by_cases hxy : x < y
        · by_cases hyz : y < z
          · rw [if_pos (by omega)]
          · rw [if_neg hyz] at h2
            by_cases hyz2 : y = z
            · rw [if_pos (by omega)]
            · rw [if_neg hyz2] at h2
              exact absurd h2 (by simp)
        · rw [if_neg hxy] at h1
          by_cases hxy2 : x = y
          · subst hxy2
            rw [if_pos rfl] at h1
            by_cases hyz : x < z
            · rw [if_pos hyz]
            · rw [if_neg hyz] at h2 ⊢
              by_cases hyz2 : x = z
              · rw [if_pos hyz2] at h2 ⊢
                exact lexLt_trans xs ys zs h1 h2
              · rw [if_neg hyz2] at h2
                exact absurd h2 (by simp)
          · rw [if_neg hxy2] at h1
            exact absurd h1 (by simp)

theorem lexLt_both_false : ∀ (a b : List Nat),
    lexLt a b = false → lexLt b a = false → a = b
  | [], [] => by intro _ _; rfl
  | [], _ :: _ => by intro h1 _; simp [lexLt] at h1
  | _ :: _, [] => by intro _ h2; simp [lexLt] at h2
  | x :: xs, y :: ys => by
    intro h1 h2
    rw [lexLt] at h1 h2
    by_cases hxy : x < y
    · rw [if_pos hxy] at h1
      exact absurd h1 (by simp)
    · rw [if_neg hxy] at h1
      by_cases hyx : y < x
      · rw [if_pos hyx] at h2
        exact absurd h2 (by simp)
      · have hxy2 : x = y := by omega
        subst hxy2
        rw [if_pos rfl] at h1
        rw [if_neg hyx, if_pos rfl] at h2
        rw [lexLt_both_false xs ys h1 h2]

theorem lexLt_irrefl (a : List Nat) : lexLt a a = false := by
  induction a with
  | nil => rfl
  | cons x xs ih =>
    rw [lexLt, if_neg (by omega), if_pos rfl, ih]

theorem strLe_total (s t : List Char) : strLe s t = true ∨ strLe t s = true := by
  rw [strLe, strLe]
  by_cases h : strLt t s = true
  · right
    by_cases h2 : strLt s t = true
    · exfalso
      rw [strLt] at h h2
      have hh := lexLt_trans _ _ _ h h2
      rw [lexLt_irrefl] at hh
      exact absurd hh (by simp)
    · simp [h2]
  · left
    simp [h]

theorem strLe_trans (a b c : List Char) (h1 : strLe a b = true) (h2 : strLe b c = true) :
    strLe a c = true := by
  rw [strLe] at h1 h2 ⊢
  have h1' : lexLt (b.map Char.toNat) (a.map Char.toNat) = false := by
    simpa [strLt] using h1
  have h2' : lexLt (c.map Char.toNat) (b.map Char.toNat) = false := by
    simpa [strLt] using h2
  have hca : strLt c a = false := by
    by_cases hac : strLt c a = true
    · exfalso
      rw [strLt] at hac
      by_cases hbc : lexLt (b.map Char.toNat) (c.map Char.toNat) = true
      · have hba := lexLt_trans _ _ _ hbc hac
        rw [hba] at h1'
        exact absurd h1' (by simp)
      · have heq := lexLt_both_false _ _ (by simpa using hbc) h2'
        rw [← heq] at hac
        rw [hac] at h1'
        exact absurd h1' (by simp)
    · simpa using hac
  simp [strLt] at hca
  simp [strLt, hca]

theorem char_toNat_injective : Function.Injective Char.toNat := by
  intro a b hab
  have hh := congrArg Char.ofNat hab
  rwa [Char.ofNat_toNat, Char.ofNat_toNat] at hh

theorem strLt_of_strLe_ne {s t : List Char} (h : strLe s t = true) (hne : s ≠ t) :
    strLt s t = true := by
  by_cases h2 : strLt s t = true
  · exact h2
  · exfalso
    have h' : lexLt (t.map Char.toNat) (s.map Char.toNat) = false := by
      rw [strLe] at h
      simpa [strLt] using h
    have h2' : lexLt (s.map Char.toNat) (t.map Char.toNat) = false := by
      simpa [strLt] using h2
    have heq := lexLt_both_false _ _ h2' h'
    exact hne (List.map_injective_iff.mpr char_toNat_injective heq)

/-! ### Accumulator lemmas -/

theorem bumpDoc_forall {P : Nat × PEntry → Prop} {dm : DocMap} {did ln m : Nat}
    (h0 : ∀ q ∈ dm, P q)
    (h1 : ∀ e : PEntry, (did, e) ∈ dm → P (did, bumpEntry e ln m))
    (h2 : P (did, bumpEntry emptyPEntry ln m)) :
    ∀ q ∈ bumpDoc dm did ln m, P q := by
  induction dm with
  | nil =>
    intro q hq
    rw [bumpDoc] at hq
    rw [List.mem_singleton.mp hq]
    exact h2
  | cons p rest ih =>
    intro q hq
    obtain ⟨d, e⟩ := p
    rw [bumpDoc] at hq
    split at hq
    · next hd =>
      subst hd
      rcases List.mem_cons.mp hq with rfl | hq2
      · exact h1 e (by simp)
      · exact h0 q (List.mem_cons_of_mem _ hq2)
    · next hd =>
      rcases List.mem_cons.mp hq with rfl | hq2
      · exact h0 (d, e) (by simp)
      · exact ih (fun r hr => h0 r (List.mem_cons_of_mem _ hr))
          (fun e2 he2 => h1 e2 (List.mem_cons_of_mem _ he2)) q hq2

theorem bumpMem_forall {P : List Char × DocMap → Prop} {mem : MemIndex} {t : List Char}
    {did ln m : Nat}
    (h0 : ∀ p ∈ mem, P p)
    (h1 : ∀ dm : DocMap, (t, dm) ∈ mem → P (t, bumpDoc dm did ln m))
    (h2 : P (t, bumpDoc [] did ln m)) :
    ∀ p ∈ bumpMem mem t did ln m, P p := by
  induction mem with
  | nil =>
    intro p hp
    rw [bumpMem] at hp
    rw [List.mem_singleton.mp hp]
    exact h2
  | cons p0 rest ih =>
    intro p hp
    obtain ⟨t0, dm⟩ := p0
    rw [bumpMem] at hp
    split at hp
    · next ht =>
      subst ht
      rcases List.mem_cons.mp hp with rfl | hp2
      · exact h1 dm (by simp)
      · exact h0 p (List.mem_cons_of_mem _ hp2)
    · next ht =>
      rcases List.mem_cons.mp hp with rfl | hp2
      · exact h0 (t0, dm) (by simp)
      · exact ih (fun r hr => h0 r (List.mem_cons_of_mem _ hr))
          (fun dm2 hdm2 => h1 dm2 (List.mem_cons_of_mem _ hdm2)) p hp2

theorem bumpDoc_keys (dm : DocMap) (did ln m : Nat) :
    (bumpDoc dm did ln m).map Prod.fst =
      if did ∈ dm.map Prod.fst then dm.map Prod.fst else dm.map Prod.fst ++ [did] := by
  induction dm with
  | nil => simp [bumpDoc]
  | cons p rest ih =>
    obtain ⟨d, e⟩ := p
    rw [bumpDoc]
    split
    · next hd =>
      subst hd
      simp
    · next hd =>
      simp only [List.map_cons]
      rw [ih]
      by_cases hin : did ∈ rest.map Prod.fst
      · rw [if_pos hin, if_pos (by simp [hin])]
      · rw [if_neg hin, if_neg ?_]
        · simp
        · simp only [List.map_cons, List.mem_cons]
          rintro (rfl | hh)
          · exact hd rfl
          · exact hin hh

theorem bumpMem_keys (mem : MemIndex) (t : List Char) (did ln m : Nat) :
    (bumpMem mem t did ln m).map Prod.fst =
      if t ∈ mem.map Prod.fst then mem.map Prod.fst else mem.map Prod.fst ++ [t] := by
  induction mem with
  | nil => simp [bumpMem]
  | cons p rest ih =>
    obtain ⟨t0, dm⟩ := p
    rw [bumpMem]
    split
    · next ht =>
      subst ht
      simp
    · next ht =>
      simp only [List.map_cons]
      rw [ih]
      by_cases hin : t ∈ rest.map Prod.fst
      · rw [if_pos hin, if_pos (by simp [hin])]
      · rw [if_neg hin, if_neg ?_]
        · simp
        · simp only [List.map_cons, List.mem_cons]
          rintro (rfl | hh)
          · exact ht rfl
          · exact hin hh

theorem bumpDoc_keys_nodup {dm : DocMap} {did ln m : Nat}
    (h : (dm.map Prod.fst).Nodup) : ((bumpDoc dm did ln m).map Prod.fst).Nodup := by
  rw [bumpDoc_keys]
  split
  · exact h
  · next hin =>
    simp [List.nodup_append, h, hin]

theorem bumpMem_keys_nodup {mem : MemIndex} {t : List Char} {did ln m : Nat}
    (h : (mem.map Prod.fst).Nodup) : ((bumpMem mem t did ln m).map Prod.fst).Nodup := by
  rw [bumpMem_keys]
  split
  · exact h
  · next hin =>
    simp [List.nodup_append, h, hin]

/-! ### Token line ordering -/

theorem tokenize_fst (strp : List Char → Option Int) (content : List Char) (dt : Nat) :
    (tokenize strp content dt).1 = tokenizeLines dt 1 (pyLines content) := rfl

theorem tokenizeLines_line_ge {dt : Nat} : ∀ (lines : List (List Char)) (i : Nat) (tk : Tok),
    tk ∈ tokenizeLines dt i lines → i ≤ tk.line
  | [], i, tk => by
    intro h
    simp [tokenizeLines] at h
  | ln :: rest, i, tk => by
    intro h
    rw [tokenizeLines] at h
    rcases List.mem_append.mp h with h1 | h2
    · rw [(tokenizeLine_mem h1).1]
    · have := tokenizeLines_line_ge rest (i + 1) tk h2
      omega

theorem tokenizeLines_line_pairwise {dt : Nat} : ∀ (lines : List (List Char)) (i : Nat),
    (tokenizeLines dt i lines).Pairwise fun a b => a.line ≤ b.line
  | [], _ => by simp [tokenizeLines]
  | ln :: rest, i => by
    rw [tokenizeLines, List.pairwise_append]
    refine ⟨?_, tokenizeLines_line_pairwise rest (i + 1), ?_⟩
    · refine List.pairwise_of_forall_mem_list ?_
      intro a ha b hb
      rw [(tokenizeLine_mem ha).1, (tokenizeLine_mem hb).1]
    · intro a ha b hb
      rw [(tokenizeLine_mem ha).1]
      have := tokenizeLines_line_ge rest (i + 1) b hb
      omega

theorem tokenize_term_ok (strp : List Char → Option Int) (content : List Char) (dt : Nat) :
    ∀ tk ∈ (tokenize strp content dt).1,
      tk.term ≠ [] ∧ ∀ c ∈ tk.term, isIdentChar c = true := by
  intro tk htk
  rw [tokenize_fst] at htk
  obtain ⟨j, hj, hline, hmem⟩ := tokenizeLines_mem htk
  exact identTokens_terms (tokenizeLine_mem hmem).2.1

/-! ### The token loop preserves the accumulator invariants -/

theorem addToks_cons (mem : MemIndex) (did : Nat) (tk : Tok) (rest : List Tok) :
    addToks mem did (tk :: rest) =
      addToks (bumpMem mem tk.term did tk.line tk.meta) did rest := rfl

theorem addToks_inv (did n : Nat) (hdn : did < n) :
    ∀ (ts : List Tok) (mem : MemIndex),
      (mem.map Prod.fst).Nodup →
      (∀ p ∈ mem, p.1 ≠ [] ∧ ∀ c ∈ p.1, isIdentChar c = true) →
      (∀ p ∈ mem, (p.2.map Prod.fst).Nodup) →
      (∀ p ∈ mem, ∀ q ∈ p.2, q.1 < n ∧ q.2.freq = q.2.pos.length ∧
        q.2.pos.Pairwise (· ≤ ·) ∧
        (q.1 = did → ∀ x ∈ q.2.pos, ∀ tk ∈ ts, x ≤ tk.line)) →
      (∀ tk ∈ ts, tk.term ≠ [] ∧ ∀ c ∈ tk.term, isIdentChar c = true) →
      ts.Pairwise (fun a b => a.line ≤ b.line) →
      ((addToks mem did ts).map Prod.fst).Nodup ∧
      (∀ p ∈ addToks mem did ts, p.1 ≠ [] ∧ ∀ c ∈ p.1, isIdentChar c = true) ∧
      (∀ p ∈ addToks mem did ts, (p.2.map Prod.fst).Nodup) ∧
      (∀ p ∈ addToks mem did ts, ∀ q ∈ p.2, q.1 < n ∧ q.2.freq = q.2.pos.length ∧
        q.2.pos.Pairwise (· ≤ ·))
  | [], mem => by
    intro hk hterm hin hent _ _
    refine ⟨hk, hterm, hin, ?_⟩
    intro p hp q hq
    obtain ⟨e1, e2, e3, -⟩ := hent p hp q hq
    exact ⟨e1, e2, e3⟩
  | tk :: rest, mem => by
    intro hk hterm hin hent htoks hpw
    rw [addToks_cons]
    have htk0 := htoks tk (List.mem_cons_self tk rest)
    have hpw0 := List.pairwise_cons.mp hpw
    -- the fresh cell made for the first occurrence of a (term, doc) pair
    have hfresh : ∀ q ∈ [(did, bumpEntry emptyPEntry tk.line tk.meta)],
        q.1 < n ∧ q.2.freq = q.2.pos.length ∧ q.2.pos.Pairwise (· ≤ ·) ∧
          (q.1 = did → ∀ x ∈ q.2.pos, ∀ tk2 ∈ rest, x ≤ tk2.line) := by
      intro q hq
      rw [List.mem_singleton.mp hq]
      refine ⟨hdn, by simp [bumpEntry, emptyPEntry], by simp [bumpEntry, emptyPEntry], ?_⟩
      intro _ x hx tk2 htk2
      have hx' : x = tk.line := by
        simpa [bumpEntry, emptyPEntry] using hx
      rw [hx']
      exact hpw0.1 tk2 htk2
    refine addToks_inv did n hdn rest (bumpMem mem tk.term did tk.line tk.meta)
      (bumpMem_keys_nodup hk) ?_ ?_ ?_
      (fun tk2 htk2 => htoks tk2 (List.mem_cons_of_mem _ htk2)) hpw0.2
    · -- term keys stay identifier strings
      exact bumpMem_forall (fun p hp => hterm p hp) (fun dm _ => htk0) htk0
    · -- inner key lists stay duplicate free
      refine bumpMem_forall (fun p hp => hin p hp) ?_ ?_
      · intro dm hdm
        exact bumpDoc_keys_nodup (hin (tk.term, dm) hdm)
      · simp [bumpDoc]
    · -- the cell invariants
      refine bumpMem_forall ?_ ?_ ?_
      · intro p hp q hq
        obtain ⟨e1, e2, e3, e4⟩ := hent p hp q hq
        exact ⟨e1, e2, e3, fun hd x hx tk2 htk2 => e4 hd x hx tk2 (List.mem_cons_of_mem _ htk2)⟩
      · intro dm hdm
        refine bumpDoc_forall ?_ ?_ ?_
        · intro q hq
          obtain ⟨e1, e2, e3, e4⟩ := hent (tk.term, dm) hdm q hq
          exact ⟨e1, e2, e3, fun hd x hx tk2 htk2 => e4 hd x hx tk2 (List.mem_cons_of_mem _ htk2)⟩
        · intro e he
          obtain ⟨e1, e2, e3, e4⟩ := hent (tk.term, dm) hdm (did, e) he
          have e2' : e.freq = e.pos.length := e2
          have e3' : e.pos.Pairwise (fun a b => a ≤ b) := e3
          have e4' : ∀ x ∈ e.pos, ∀ tk1 ∈ tk :: rest, x ≤ tk1.line := e4 rfl
          have hbound : ∀ x ∈ e.pos, x ≤ tk.line :=
            fun x hx => e4' x hx tk (List.mem_cons_self tk rest)
          refine ⟨hdn, ?_, ?_, ?_⟩
          · show e.freq + 1 = (e.pos ++ [tk.line]).length
            simp [e2']
          · show (e.pos ++ [tk.line]).Pairwise (fun a b => a ≤ b)
            rw [List.pairwise_append]
            refine ⟨e3', by simp, ?_⟩
            intro x hx y hy
            rw [List.mem_singleton.mp hy]
            exact hbound x hx
          · intro _ x hx tk2 htk2
            have hx' : x ∈ e.pos ∨ x = tk.line := by
              simpa [bumpEntry] using hx
            rcases hx' with hx1 | rfl
            · exact e4' x hx1 tk2 (List.mem_cons_of_mem _ htk2)
            · exact hpw0.1 tk2 htk2
        · exact hfresh _ (by simp)
      · rw [bumpDoc]
        exact hfresh

theorem buildFold_inv (strp : List Char → Option Int) :
    ∀ (corpus : List WalkFile) (st : BuildState),
      (st.mem.map Prod.fst).Nodup →
      (∀ p ∈ st.mem, p.1 ≠ [] ∧ ∀ c ∈ p.1, isIdentChar c = true) →
      (∀ p ∈ st.mem, (p.2.map Prod.fst).Nodup) →
      (∀ p ∈ st.mem, ∀ q ∈ p.2, q.1 < st.nextId ∧ q.2.freq = q.2.pos.length ∧
        q.2.pos.Pairwise (· ≤ ·)) →
      ((corpus.foldl (buildStep strp) st).mem.map Prod.fst).Nodup ∧
      (∀ p ∈ (corpus.foldl (buildStep strp) st).mem,
        p.1 ≠ [] ∧ ∀ c ∈ p.1, isIdentChar c = true) ∧
      (∀ p ∈ (corpus.foldl (buildStep strp) st).mem, (p.2.map Prod.fst).Nodup) ∧
      (∀ p ∈ (corpus.foldl (buildStep strp) st).mem, ∀ q ∈ p.2,
        q.1 < (corpus.foldl (buildStep strp) st).nextId ∧
        q.2.freq = q.2.pos.length ∧ q.2.pos.Pairwise (· ≤ ·))
  | [], st => fun hk hterm hin hent => ⟨hk, hterm, hin, hent⟩
  | w :: rest, st => by
    intro hk hterm hin hent
    rw [List.foldl_cons]
    cases ha : acceptEntry strp w with
    | none =>
      rw [buildStep_of_acceptEntry_none ha]
      exact buildFold_inv strp rest st hk hterm hin hent
    | some r =>
      rw [buildStep_of_acceptEntry_some ha]
      obtain ⟨k1, k2, k3, k4⟩ :=
        addToks_inv st.nextId (st.nextId + 1) (by omega)
          (tokenize strp w.content r.1).1 st.mem hk hterm hin
          (fun p hp q hq => by
            obtain ⟨q1, q2, q3⟩ := hent p hp q hq
            exact ⟨by omega, q2, q3, fun hd => absurd hd (by omega)⟩)
          (tokenize_term_ok strp w.content r.1)
          (by rw [tokenize_fst]; exact tokenizeLines_line_pairwise _ _)
      exact buildFold_inv strp rest _ k1 k2 k3 k4

theorem buildIndex_mem_inv (strp : List Char → Option Int) (corpus : List WalkFile) :
    ((buildIndex strp corpus).mem.map Prod.fst).Nodup ∧
    (∀ p ∈ (buildIndex strp corpus).mem, p.1 ≠ [] ∧ ∀ c ∈ p.1, isIdentChar c = true) ∧
    (∀ p ∈ (buildIndex strp corpus).mem, (p.2.map Prod.fst).Nodup) ∧
    (∀ p ∈ (buildIndex strp corpus).mem, ∀ q ∈ p.2,
      q.2.freq = q.2.pos.length ∧ q.2.pos.Pairwise (· ≤ ·)) := by
  obtain ⟨k1, k2, k3, k4⟩ := buildFold_inv strp corpus initBuild
    (by simp [initBuild]) (by simp [initBuild]) (by simp [initBuild]) (by simp [initBuild])
  refine ⟨k1, k2, k3, ?_⟩
  intro p hp q hq
  obtain ⟨-, q2, q3⟩ := k4 p hp q hq
  exact ⟨q2, q3⟩

theorem docLe_total (x y : Nat × PEntry) :
    decide (x.1 ≤ y.1) = true ∨ decide (y.1 ≤ x.1) = true := by
  rcases Nat.le_total x.1 y.1 with h | h
  · exact Or.inl (decide_eq_true h)
  · exact Or.inr (decide_eq_true h)

theorem docLe_trans (x y z : Nat × PEntry) (h1 : decide (x.1 ≤ y.1) = true)
    (h2 : decide (y.1 ≤ z.1) = true) : decide (x.1 ≤ z.1) = true := by
  have g1 := of_decide_eq_true h1
  have g2 := of_decide_eq_true h2
  exact decide_eq_true (by omega)

/-- C6: in the written index, every posting cell satisfies freq equal to the
number of recorded positions, the positions are in emission order
(non-decreasing line numbers), and each posting list is sorted strictly
ascending by doc_id. -/
theorem C6_posting_invariants (strp : List Char → Option Int) (corpus : List WalkFile)
    (t : List Char) (dl : DocMap) (d : Nat) (e : PEntry)
    (h1 : (t, dl) ∈ writtenPostings (buildIndex strp corpus).mem)
    (h2 : (d, e) ∈ dl) :
    e.freq = e.pos.length ∧ e.pos.Pairwise (· ≤ ·) ∧
      (dl.map Prod.fst).Pairwise (· < ·) := by
  obtain ⟨hk, hterm, hin, hent⟩ := buildIndex_mem_inv strp corpus
  rw [writtenPostings] at h1
  rcases List.mem_map.mp h1 with ⟨⟨t0, dm⟩, hdm0, heq⟩
  have hdl : sortDocMap dm = dl := congrArg Prod.snd heq
  have hdm : (t0, dm) ∈ (buildIndex strp corpus).mem :=
    (insSort_perm _ _).mem_iff.mp hdm0
  have hde : (d, e) ∈ dm := by
    have hperm : (sortDocMap dm).Perm dm := insSort_perm _ _
    rw [hdl] at hperm
    exact hperm.mem_iff.mp h2
  obtain ⟨hfreq, hpos⟩ := hent (t0, dm) hdm (d, e) hde
  refine ⟨hfreq, hpos, ?_⟩
  have hnd : (dm.map Prod.fst).Nodup := hin (t0, dm) hdm
  have hsorted := insSort_pairwise (fun a b => decide (a.1 ≤ b.1)) docLe_total docLe_trans dm
  have hnd2 : (dl.map Prod.fst).Nodup := by
    rw [← hdl]
    exact (((insSort_perm _ dm).map Prod.fst).nodup_iff).mpr hnd
  have hle : dl.Pairwise fun x y => decide (x.1 ≤ y.1) = true := hdl ▸ hsorted
  have hfstle : (dl.map Prod.fst).Pairwise (· ≤ ·) := by
    rw [List.pairwise_map]
    exact hle.imp (fun h => of_decide_eq_true h)
  have hne : (dl.map Prod.fst).Pairwise (· ≠ ·) := hnd2
  exact (hfstle.and hne).imp (fun h => lt_of_le_of_ne h.1 h.2)

theorem C6_witness :
    (2 : Nat) = ([1, 2] : List Nat).length ∧
    ([1, 2] : List Nat).Pairwise (· ≤ ·) ∧
    (([(1, (⟨2, [1, 2], 2⟩ : PEntry))] : DocMap).map Prod.fst).Pairwise (· < ·) :=
  C6_posting_invariants strpNone [⟨"a.py".toList, "a.py".toList, codeSample⟩] "foo".toList
    [(1, ⟨2, [1, 2], 2⟩)] 1 ⟨2, [1, 2], 2⟩ (by decide) (by decide)

/-! ### Writer layout lemmas (C5) -/

theorem flatMap_le32_length (pos : List Nat) : (pos.flatMap le32).length = 4 * pos.length := by
  induction pos with
  | nil => rfl
  | cons p ps ih =>
    simp only [List.flatMap_cons, List.length_append, List.length_cons, ih, le32,
      List.length_nil]
    omega

theorem postingBytes_length (d : Nat) (e : PEntry) :
    (postingBytes d e).length = 13 + 4 * e.pos.length := by
  simp only [postingBytes, le32, List.length_append, List.length_cons, List.length_nil,
    flatMap_le32_length]

theorem regionBytes_length (dl : DocMap) : (regionBytes dl).length = regionSize dl := by
  induction dl with
  | nil => rfl
  | cons p ps ih =>
    rw [regionBytes, List.flatMap_cons, List.length_append, postingBytes_length,
      regionSize, List.map_cons, List.sum_cons]
    rw [regionBytes] at ih
    rw [ih, regionSize, postingSize]

theorem drop_append_add (l r : List α) (k : Nat) : (l ++ r).drop (l.length + k) = r.drop k := by
  induction l with
  | nil => simp
  | cons a as ih =>
    have harith : (a :: as).length + k = (as.length + k) + 1 := by
      simp only [List.length_cons]
      omega
    rw [List.cons_append, harith, List.drop_succ_cons, ih]

theorem writeRegions_spec : ∀ (l : MemIndex) (off : Nat),
    (writeRegions l off).1 = l.flatMap (fun p => regionBytes p.2) ∧
    (writeRegions l off).2.map LexRec.term = l.map Prod.fst ∧
    (writeRegions l off).2.length = l.length ∧
    ∀ j, j < l.length →
      ((writeRegions l off).2.getD j ⟨[], 0, 0⟩).term = (l.getD j ([], [])).1 ∧
      ((writeRegions l off).2.getD j ⟨[], 0, 0⟩).df = (l.getD j ([], [])).2.length ∧
      ((writeRegions l off).2.getD j ⟨[], 0, 0⟩).offset =
        off + ((l.take j).map fun p => regionSize p.2).sum
  | [], off => by simp [writeRegions]
  | (t, dl) :: rest, off => by
    obtain ⟨ih1, ih2, ih3, ih4⟩ := writeRegions_spec rest (off + regionSize dl)
    rw [writeRegions]
    simp only []
    refine ⟨?_, ?_, ?_, ?_⟩
    · rw [List.flatMap_cons, ih1]
    · rw [List.map_cons, List.map_cons, ih2]
    · simp [ih3]
    · intro j hj
      cases j with
      | zero => simp
      | succ j =>
        have hj' : j < rest.length := by simpa using hj
        obtain ⟨g1, g2, g3⟩ := ih4 j hj'
        refine ⟨by simpa using g1, by simpa using g2, ?_⟩
        simp only [List.getD_cons_succ, List.take_succ_cons, List.map_cons, List.sum_cons]
        rw [g3]
        omega

theorem regionBytes_drop_take : ∀ (l : MemIndex) (j : Nat), j < l.length →
    ((l.flatMap fun p => regionBytes p.2).drop
        (((l.take j).map fun p => regionSize p.2).sum)).take
        (regionSize (l.getD j ([], [])).2) =
      regionBytes (l.getD j ([], [])).2
  | [], j => by intro h; simp at h
  | (t, dl) :: rest, 0 => by
    intro _
    simp only [List.take_zero, List.map_nil, List.sum_nil, List.drop_zero, List.getD_cons_zero]
    rw [List.flatMap_cons, ← regionBytes_length dl]
    exact List.take_left _ _
  | (t, dl) :: rest, j + 1 => by
    intro h
    simp only [List.take_succ_cons, List.map_cons, List.sum_cons, List.getD_cons_succ]
    rw [List.flatMap_cons, ← regionBytes_length dl, drop_append_add]
    exact regionBytes_drop_take rest j (by simpa using h)

theorem writtenPostings_keys (mem : MemIndex) :
    (writtenPostings mem).map Prod.fst = (sortedMem mem).map Prod.fst := by
  rw [writtenPostings, List.map_map]
  rfl

theorem lexLt_nil_right (a : List Nat) : lexLt a [] = false := by
  cases a <;> rfl

theorem lexLt_take : ∀ (n : Nat) (a b : List Nat), lexLt a b = true →
    lexLt (b.take n) (a.take n) = false
  | 0, a, b => by intro _; rfl
  | n + 1, [], b => by
    intro _
    rw [List.take_nil]
    exact lexLt_nil_right _
  | n + 1, x :: xs, [] => by
    intro h
    simp [lexLt] at h
  | n + 1, x :: xs, y :: ys => by
    intro h
    rw [lexLt] at h
    rw [List.take_succ_cons, List.take_succ_cons, lexLt]
    by_cases hxy : x < y
    · rw [if_neg (by omega), if_neg (by omega)]
    · rw [if_neg hxy] at h
      by_cases heq : x = y
      · subst heq
        rw [if_pos rfl] at h
        rw [if_neg (by omega), if_pos rfl]
        exact lexLt_take n xs ys h
      · rw [if_neg heq] at h
        exact absurd h (by simp)

theorem lexLt_utf8_of_ascii {a b : List Char}
    (ha : ∀ c ∈ a, c.toNat < 128) (hb : ∀ c ∈ b, c.toNat < 128) :
    lexLt (utf8Encode a) (utf8Encode b) = strLt a b := by
  rw [utf8Encode_ascii ha, utf8Encode_ascii hb]
  rfl

theorem builtPostings_freq_len (strp : List Char → Option Int) (corpus : List WalkFile) :
    ∀ p ∈ builtPostings strp corpus, ∀ q ∈ p.2, q.2.freq = q.2.pos.length := by
  intro p hp q hq
  obtain ⟨-, -, -, hent⟩ := buildIndex_mem_inv strp corpus
  rw [builtPostings, writtenPostings] at hp
  rcases List.mem_map.mp hp with ⟨⟨t0, dm⟩, hdm0, heq⟩
  have hdm : (t0, dm) ∈ (buildIndex strp corpus).mem :=
    (insSort_perm _ _).mem_iff.mp hdm0
  have hq2 : q ∈ dm := by
    have hsnd : p.2 = sortDocMap dm := by rw [← heq]
    exact (insSort_perm _ dm).mem_iff.mp (hsnd ▸ hq)
  exact (hent (t0, dm) hdm q hq2).1

theorem regionSize_eq_freq_sum (dl : DocMap) (h : ∀ q ∈ dl, q.2.freq = q.2.pos.length) :
    regionSize dl = (dl.map fun q => 13 + 4 * q.2.freq).sum := by
  induction dl with
  | nil => rfl
  | cons p ps ih =>
    rw [regionSize, List.map_cons, List.sum_cons, List.map_cons, List.sum_cons, postingSize,
      h p (by simp)]
    rw [regionSize] at ih
    rw [ih (fun q hq => h q (List.mem_cons_of_mem _ hq))]

theorem builtTerms_strict (strp : List Char → Option Int) (corpus : List WalkFile) :
    ((builtPostings strp corpus).map Prod.fst).Pairwise (fun a b => strLt a b = true) ∧
    (∀ t ∈ (builtPostings strp corpus).map Prod.fst, ∀ c ∈ t, isIdentChar c = true) := by
  obtain ⟨hk, hterm, -, -⟩ := buildIndex_mem_inv strp corpus
  have hperm := insSort_perm (fun (a b : List Char × DocMap) => strLe a.1 b.1)
    (buildIndex strp corpus).mem
  constructor
  · rw [builtPostings, writtenPostings_keys]
    have hsorted := insSort_pairwise (fun (a b : List Char × DocMap) => strLe a.1 b.1)
      (fun x y => strLe_total x.1 y.1) (fun x y z => strLe_trans x.1 y.1 z.1)
      (buildIndex strp corpus).mem
    have hnd2 : ((sortedMem (buildIndex strp corpus).mem).map Prod.fst).Nodup :=
      ((hperm.map Prod.fst).nodup_iff).mpr hk
    have hle : ((sortedMem (buildIndex strp corpus).mem).map Prod.fst).Pairwise
        (fun a b => strLe a b = true) := by
      rw [List.pairwise_map]
      exact hsorted
    exact (hle.and hnd2).imp (fun h => strLt_of_strLe_ne h.1 h.2)
  · intro t ht c hc
    rw [builtPostings, writtenPostings_keys] at ht
    rcases List.mem_map.mp ht with ⟨p, hp, rfl⟩
    exact (hterm p (hperm.mem_iff.mp hp)).2 c hc

/-- C5: lexicon records are written in strictly ascending byte order of
their (untruncated) terms, and the stored 255-byte-truncated keys are
correspondingly non-decreasing; each record's df equals the number of
postings of its term; each record's offset is the byte position in index.bin
where its term's posting region begins, and the region's size is the sum of
13 + 4*freq over its postings (the writer advances the offset counter by 13
plus 4 per position). -/
theorem C5_lexicon_layout (strp : List Char → Option Int) (corpus : List WalkFile) (j : Nat)
    (hj : j < (builtLexRecs strp corpus).length) :
    ((builtLexRecs strp corpus).map (fun r => utf8Encode r.term)).Pairwise
      (fun a b => lexLt a b = true) ∧
    ((builtLexRecs strp corpus).map (fun r => (utf8Encode r.term).take 255)).Pairwise
      (fun a b => lexLt b a = false) ∧
    ((builtLexRecs strp corpus).getD j ⟨[], 0, 0⟩).term =
      ((builtPostings strp corpus).getD j ([], [])).1 ∧
    ((builtLexRecs strp corpus).getD j ⟨[], 0, 0⟩).df =
      ((builtPostings strp corpus).getD j ([], [])).2.length ∧
    ((builtLexRecs strp corpus).getD j ⟨[], 0, 0⟩).offset =
      (((builtPostings strp corpus).take j).map fun p => regionSize p.2).sum ∧
    ((builtIndexBytes strp corpus).drop
        ((builtLexRecs strp corpus).getD j ⟨[], 0, 0⟩).offset).take
        (regionSize ((builtPostings strp corpus).getD j ([], [])).2) =
      regionBytes ((builtPostings strp corpus).getD j ([], [])).2 ∧
    regionSize ((builtPostings strp corpus).getD j ([], [])).2 =
      (((builtPostings strp corpus).getD j ([], [])).2.map fun q => 13 + 4 * q.2.freq).sum := by
  obtain ⟨hw1, hw2, hw3, hw4⟩ := writeRegions_spec (builtPostings strp corpus) 0
  have hjp : j < (builtPostings strp corpus).length := by
    rw [builtLexRecs, hw3] at hj
    exact hj
  obtain ⟨hg1, hg2, hg3⟩ := hw4 j hjp
  rw [← builtLexRecs] at hg1 hg2 hg3
  obtain ⟨hstrict, hascii⟩ := builtTerms_strict strp corpus
  have htermsEq : (builtLexRecs strp corpus).map LexRec.term =
      (builtPostings strp corpus).map Prod.fst := hw2
  have hbytes : ((builtLexRecs strp corpus).map (fun r => utf8Encode r.term)).Pairwise
      (fun a b => lexLt a b = true) := by
    have hcomp : (builtLexRecs strp corpus).map (fun r => utf8Encode r.term) =
        ((builtPostings strp corpus).map Prod.fst).map utf8Encode := by
      rw [← htermsEq, List.map_map]
      rfl
    rw [hcomp, List.pairwise_map]
    refine List.Pairwise.imp_of_mem ?_ hstrict
    intro a b ha hb hab
    rw [lexLt_utf8_of_ascii
      (fun c hc => isIdentChar_ascii (hascii a ha c hc))
      (fun c hc => isIdentChar_ascii (hascii b hb c hc)), hab]
  refine ⟨hbytes, ?_, hg1, hg2, by simpa using hg3, ?_, ?_⟩
  · have hcomp2 : (builtLexRecs strp corpus).map (fun r => (utf8Encode r.term).take 255) =
        ((builtLexRecs strp corpus).map (fun r => utf8Encode r.term)).map
          (fun bsx => bsx.take 255) := by
      rw [List.map_map]
      rfl
    rw [hcomp2, List.pairwise_map]
    exact hbytes.imp (fun h => lexLt_take 255 _ _ h)
  · rw [builtIndexBytes, hw1, hg3]
    simpa using regionBytes_drop_take (builtPostings strp corpus) j hjp
  · have hmem : (builtPostings strp corpus).getD j ([], []) ∈ builtPostings strp corpus := by
      rw [List.getD_eq_getElem _ _ hjp]
      exact List.getElem_mem _
    exact regionSize_eq_freq_sum _ (builtPostings_freq_len strp corpus _ hmem)

theorem C5_witness :
    ((builtLexRecs strpNone exCorpusA).map (fun r => utf8Encode r.term)).Pairwise
      (fun a b => lexLt a b = true) ∧
    ((builtLexRecs strpNone exCorpusA).getD 1 ⟨[], 0, 0⟩).offset =
      (((builtPostings strpNone exCorpusA).take 1).map fun p => regionSize p.2).sum ∧
    ((builtIndexBytes strpNone exCorpusA).drop
        ((builtLexRecs strpNone exCorpusA).getD 1 ⟨[], 0, 0⟩).offset).take
        (regionSize ((builtPostings strpNone exCorpusA).getD 1 ([], [])).2) =
      regionBytes ((builtPostings strpNone exCorpusA).getD 1 ([], [])).2 :=
  ⟨(C5_lexicon_layout strpNone exCorpusA 1 (by decide)).1,
   (C5_lexicon_layout strpNone exCorpusA 1 (by decide)).2.2.2.2.1,
   (C5_lexicon_layout strpNone exCorpusA 1 (by decide)).2.2.2.2.2.1⟩


/-! ### Ranking lemmas (C4) -/

/-- filter is monotone in the predicate, pointwise over members. -/
theorem filter_sublist_filter {α : Type} (p q : α → Bool) :
    ∀ l : List α, (∀ e ∈ l, p e = true → q e = true) →
      List.Sublist (l.filter p) (l.filter q)
  | [], _ => by simp
  | a :: l, h => by
    rw [List.filter_cons, List.filter_cons]
    by_cases hp : p a = true
    · rw [if_pos hp, if_pos (h a (List.mem_cons_self a l) hp)]
      exact List.Sublist.cons₂ a
        (filter_sublist_filter p q l fun e he => h e (List.mem_cons_of_mem a he))
    · rw [if_neg hp]
      have hrest := filter_sublist_filter p q l fun e he => h e (List.mem_cons_of_mem a he)
      by_cases hq : q a = true
      · rw [if_pos hq]; exact List.Sublist.cons a hrest
      · rw [if_neg hq]; exact hrest

/-- bumpAcc on a fresh key appends a cell with count 1. -/
theorem bumpAcc_fresh {K : Type} [LinearOrderedCommRing K] (did : Nat) (s : K) :
    ∀ acc : ScoreAcc K, did ∉ accKeys acc → bumpAcc acc did s = acc ++ [(did, s, 1)]
  | [], _ => rfl
  | (d, sc, c) :: rest, h => by
    have hd : d ≠ did := by
      intro hdd; exact h (by simp [accKeys, hdd])
    rw [bumpAcc, if_neg hd, List.cons_append,
      bumpAcc_fresh did s rest (fun hm => h (by simp [accKeys] at hm ⊢; exact Or.inr hm))]

/-- bumpAcc on an existing key updates the first cell with that key in
place. -/
theorem bumpAcc_found {K : Type} [LinearOrderedCommRing K] (did : Nat) (s : K) (sc : K)
    (c : Nat) (l₂ : ScoreAcc K) :
    ∀ l₁ : ScoreAcc K, did ∉ accKeys l₁ →
      bumpAcc (l₁ ++ (did, sc, c) :: l₂) did s = l₁ ++ (did, sc + s, c + 1) :: l₂
  | [], _ => by simp [bumpAcc]
  | (d, x, y) :: rest, h => by
    have hd : d ≠ did := by
      intro hdd; exact h (by simp [accKeys, hdd])
    rw [List.cons_append, bumpAcc, if_neg hd, List.cons_append,
      bumpAcc_found did s sc c l₂ rest
        (fun hm => h (by simp [accKeys] at hm ⊢; exact Or.inr hm))]

/-- A key present in the accumulator splits it at the first occurrence. -/
theorem accKeys_split {K : Type} (did : Nat) :
    ∀ acc : ScoreAcc K, did ∈ accKeys acc →
      ∃ l₁ sc c l₂, acc = l₁ ++ (did, sc, c) :: l₂ ∧ did ∉ accKeys l₁
  | [], h => absurd h (by simp [accKeys])
  | (d, sc, c) :: rest, h => by
    by_cases hd : d = did
    · exact ⟨[], sc, c, rest, by rw [hd, List.nil_append], by simp [accKeys]⟩
    · have hm : did ∈ accKeys rest := by
        simp [accKeys] at h ⊢
        rcases h with h | h
        · exact absurd h.symm hd
        · exact h
      obtain ⟨l₁, sc', c', l₂, heq, hnm⟩ := accKeys_split did rest hm
      exact ⟨(d, sc, c) :: l₁, sc', c', l₂, by rw [heq, List.cons_append],
        by simp [accKeys] at hnm ⊢; exact ⟨fun hdd => hd hdd.symm, hnm⟩⟩

/-- Dropping the head of the remaining-doc list weakens Jmid. -/
theorem Jmid_shrink {K : Type} (r : Nat) (acc : ScoreAcc K) (d : Nat) (D : List Nat)
    (hJ : Jmid r acc (d :: D)) : Jmid r acc D := by
  obtain ⟨h1, h2, h3, h4⟩ := hJ
  refine ⟨h1, h2, ?_, fun e he hc x hx => h4 e he hc x (List.mem_cons_of_mem d hx)⟩
  refine List.Pairwise.sublist (List.Sublist.map _ ?_) h3
  refine filter_sublist_filter _ _ acc fun e _ hp => ?_
  simp only [qmid, Bool.or_eq_true, Bool.and_eq_true, decide_eq_true_eq] at hp ⊢
  rcases hp with hp | ⟨hc, hm⟩
  · exact Or.inl hp
  · exact Or.inr ⟨hc, List.mem_cons_of_mem d hm⟩

/-- Entering a round: the between-round invariant yields the mid-round one
for any remaining-doc list. -/
theorem Brounds_to_Jmid {K : Type} (r : Nat) (acc : ScoreAcc K) (D : List Nat)
    (hB : Brounds r acc) : Jmid r acc D := by
  obtain ⟨h1, h2, h3⟩ := hB
  refine ⟨h1, fun e he => ⟨(h2 e he).1, Nat.le_succ_of_le (h2 e he).2⟩, ?_,
    fun e he hc => absurd hc (by have := (h2 e he).2; omega)⟩
  refine List.Pairwise.sublist (List.Sublist.map _ ?_) h3
  refine filter_sublist_filter _ _ acc fun e he hp => ?_
  simp only [qmid, Bool.or_eq_true, Bool.and_eq_true, decide_eq_true_eq] at hp ⊢
  rcases hp with hp | ⟨hc, _⟩
  · exact absurd hp (by have := (h2 e he).2; omega)
  · exact hc

/-- Leaving a round: the mid-round invariant with no postings left yields the
between-round invariant for `r + 1`. -/
theorem Jmid_to_Brounds {K : Type} (r : Nat) (acc : ScoreAcc K)
    (hJ : Jmid r acc []) : Brounds (r + 1) acc := by
  obtain ⟨h1, h2, h3, _⟩ := hJ
  refine ⟨h1, h2, ?_⟩
  have : acc.filter (fun e => decide (e.2.2 = r + 1)) = acc.filter (qmid r []) := by
    refine List.filter_congr fun e _ => ?_
    simp [qmid]
  rw [this]; exact h3

theorem qmid_mono {K : Type} (r d : Nat) (D : List Nat)
    (e : Nat × K × Nat) (h : qmid r D e = true) : qmid r (d :: D) e = true := by
  simp only [qmid, Bool.or_eq_true, Bool.and_eq_true, decide_eq_true_eq] at h ⊢
  rcases h with h | ⟨h1, h2⟩
  · exact Or.inl h
  · exact Or.inr ⟨h1, List.mem_cons_of_mem d h2⟩

theorem accKeys_append {K : Type} (l₁ l₂ : ScoreAcc K) :
    accKeys (l₁ ++ l₂) = accKeys l₁ ++ accKeys l₂ := List.map_append _ _ _

/-- One posting step preserves the mid-round invariant, consuming the head of
the remaining-doc list. -/
theorem postingStep_Jmid {K : Type} [LinearOrderedCommRing K]
    (docs : List (Nat × ReadDoc)) (idfv : K) (extF levelF : Option (List Char))
    (r : Nat) (p : Posting) (D : List Nat) (acc0 acc1 : ScoreAcc K)
    (hstep : postingStep docs idfv extF levelF (some acc0) p = some acc1)
    (hlt : ∀ d ∈ D, p.doc_id < d)
    (hJ : Jmid r acc0 (p.doc_id :: D)) : Jmid r acc1 D := by
  simp only [postingStep] at hstep
  cases hdoc : dictGet? docs p.doc_id with
  | none => rw [hdoc] at hstep; exact absurd hstep (by simp)
  | some doc =>
    rw [hdoc] at hstep
    simp only [] at hstep
    by_cases hext : extSkip extF doc.path
    · rw [if_pos hext] at hstep
      obtain rfl : acc0 = acc1 := by simpa using hstep
      exact Jmid_shrink _ _ _ _ hJ
    · rw [if_neg hext] at hstep
      by_cases hlev : levelSkip levelF p.meta
      · rw [if_pos hlev] at hstep
        obtain rfl : acc0 = acc1 := by simpa using hstep
        exact Jmid_shrink _ _ _ _ hJ
      · rw [if_neg hlev] at hstep
        have hbump : acc1 = bumpAcc acc0 p.doc_id (scoreOf idfv p) :=
          (Option.some_inj.mp hstep).symm
        obtain ⟨hN, hC, hP, hF⟩ := hJ
        have hninD : p.doc_id ∉ D := fun hm => absurd (hlt _ hm) (lt_irrefl _)
        by_cases hmem : p.doc_id ∈ accKeys acc0
        · -- update in place at the first occurrence of the key
          obtain ⟨l₁, sc, c, l₂, hsplit, hnk⟩ := accKeys_split p.doc_id acc0 hmem
          rw [hsplit, bumpAcc_found _ _ _ _ _ _ hnk] at hbump
          have hold : (p.doc_id, sc, c) ∈ acc0 := by
            rw [hsplit]; exact List.mem_append_right _ (List.mem_cons_self _ _)
          have hcb : c ≤ r + 1 := (hC _ hold).2
          have hcr : c ≤ r := by
            by_cases hc : c = r + 1
            · exact absurd (hF _ hold hc p.doc_id (List.mem_cons_self _ _)) (lt_irrefl _)
            · omega
          have hc1 : 1 ≤ c := (hC _ hold).1
          refine ⟨?_, ?_, ?_, ?_⟩
          · -- keys unchanged
            have : accKeys acc1 = accKeys acc0 := by
              rw [hbump, hsplit, accKeys_append, accKeys_append]; rfl
            rw [this]; exact hN
          · intro e he
            rw [hbump] at he
            rcases List.mem_append.mp he with he1 | he2
            · exact hC e (hsplit ▸ List.mem_append_left _ he1)
            · rcases List.mem_cons.mp he2 with rfl | he3
              · exact ⟨show 1 ≤ c + 1 by omega, show c + 1 ≤ r + 1 by omega⟩
              · exact hC e (hsplit ▸ List.mem_append_right _ (List.mem_cons_of_mem _ he3))
          · -- ordering: the filtered key list is a sublist of the old one
            refine List.Pairwise.sublist ?_ hP
            rw [hbump, hsplit]
            rw [List.filter_append, List.filter_append, List.map_append, List.map_append]
            refine List.Sublist.append
              (List.Sublist.map _ (filter_sublist_filter _ _ l₁
                fun e _ h => qmid_mono r p.doc_id D e h)) ?_
            rw [List.filter_cons, List.filter_cons]
            have htail : List.Sublist
                ((l₂.filter (qmid r D)).map fun e => e.1)
                ((l₂.filter (qmid r (p.doc_id :: D))).map fun e => e.1) :=
              List.Sublist.map _ (filter_sublist_filter _ _ l₂
                fun e _ h => qmid_mono r p.doc_id D e h)
            by_cases hq : qmid r D (p.doc_id, sc + scoreOf idfv p, c + 1) = true
            · have hqc : c = r := by
                simp only [qmid, Bool.or_eq_true, Bool.and_eq_true,
                  decide_eq_true_eq] at hq
                rcases hq with hq | ⟨_, hmemD⟩
                · omega
                · exact absurd hmemD hninD
              have hqold : qmid r (p.doc_id :: D) (p.doc_id, sc, c) = true := by
                simp only [qmid, Bool.or_eq_true, Bool.and_eq_true, decide_eq_true_eq]
                exact Or.inr ⟨hqc, List.mem_cons_self _ _⟩
              rw [if_pos hq, if_pos hqold]
              exact List.Sublist.cons₂ _ htail
            · rw [if_neg hq]
              by_cases hqo : qmid r (p.doc_id :: D) (p.doc_id, sc, c) = true
              · rw [if_pos hqo]; exact List.Sublist.cons _ htail
              · rw [if_neg hqo]; exact htail
          · intro e he hcnt d hd
            rw [hbump] at he
            rcases List.mem_append.mp he with he1 | he2
            · exact hF e (hsplit ▸ List.mem_append_left _ he1) hcnt d
                (List.mem_cons_of_mem _ hd)
            · rcases List.mem_cons.mp he2 with rfl | he3
              · exact hlt d hd
              · exact hF e (hsplit ▸ List.mem_append_right _ (List.mem_cons_of_mem _ he3))
                  hcnt d (List.mem_cons_of_mem _ hd)
        · -- fresh key: appended with count 1
          rw [bumpAcc_fresh _ _ _ hmem] at hbump
          refine ⟨?_, ?_, ?_, ?_⟩
          · rw [hbump, accKeys_append]
            rw [List.nodup_append]
            refine ⟨hN, List.nodup_singleton _, ?_⟩
            intro a ha hb
            have : a = p.doc_id := by simpa [accKeys] using hb
            exact hmem (this ▸ ha)
          · intro e he
            rw [hbump] at he
            rcases List.mem_append.mp he with he1 | he2
            · exact ⟨(hC e he1).1, (hC e he1).2⟩
            · obtain rfl : e = (p.doc_id, scoreOf idfv p, 1) := by simpa using he2
              exact ⟨show (1 : Nat) ≤ 1 by omega, show (1 : Nat) ≤ r + 1 by omega⟩
          · rw [hbump, List.filter_append, List.map_append, List.filter_cons]
            have hfq : qmid r D (p.doc_id, scoreOf idfv p, (1 : Nat))
                = decide (1 = r + 1) := by
              simp only [qmid, decide_eq_true_eq]
              have : decide (p.doc_id ∈ D) = false := by
                simpa using hninD
              rw [this, Bool.and_false, Bool.or_false]
            by_cases hr : r = 0
            · subst hr
              rw [hfq]
              rw [if_pos (by simp)]
              simp only [List.filter_nil, List.map_cons, List.map_nil]
              rw [List.pairwise_append]
              have hPD : ((acc0.filter (qmid 0 D)).map fun e => e.1).Pairwise (· < ·) :=
                (Jmid_shrink _ _ _ _ ⟨hN, hC, hP, hF⟩).2.2.1
              refine ⟨hPD, List.pairwise_singleton _ _, ?_⟩
              intro x hx y hy
              obtain rfl : y = p.doc_id := by simpa using hy
              simp only [List.mem_map, List.mem_filter] at hx
              obtain ⟨e, ⟨he, hq⟩, rfl⟩ := hx
              have hcnt : e.2.2 = 0 + 1 := by
                simp only [qmid, Bool.or_eq_true, Bool.and_eq_true,
                  decide_eq_true_eq] at hq
                rcases hq with hq | ⟨hq, _⟩
                · exact hq
                · exact absurd hq (by have := (hC e he).1; omega)
              exact hF e he hcnt p.doc_id (List.mem_cons_self _ _)
            · rw [hfq, if_neg (by simpa using fun h : 1 = r + 1 => hr (by omega))]
              simp only [List.filter_nil, List.map_nil, List.append_nil]
              exact (Jmid_shrink _ _ _ _ ⟨hN, hC, hP, hF⟩).2.2.1
          · intro e he hcnt d hd
            rw [hbump] at he
            rcases List.mem_append.mp he with he1 | he2
            · exact hF e he1 hcnt d (List.mem_cons_of_mem _ hd)
            · obtain rfl : e = (p.doc_id, scoreOf idfv p, 1) := by simpa using he2
              exact hlt d hd



theorem postingFold_none {K : Type} [LinearOrderedCommRing K]
    (docs : List (Nat × ReadDoc)) (idfv : K) (extF levelF : Option (List Char)) :
    ∀ ps : List Posting, ps.foldl (postingStep docs idfv extF levelF) none = none
  | [] => rfl
  | p :: ps => by
    rw [List.foldl_cons]
    have : postingStep docs idfv extF levelF none p = none := rfl
    rw [this, postingFold_none docs idfv extF levelF ps]

theorem termFold_none {K : Type} [LinearOrderedCommRing K]
    (idxB : List Nat) (docs : List (Nat × ReadDoc)) (lex : List (List Char × Nat × Nat))
    (idf : Nat → Nat → K) (total : Nat) (extF levelF : Option (List Char)) :
    ∀ ts : List (List Char),
      ts.foldl (termStep idxB docs lex idf total extF levelF) none = none
  | [] => rfl
  | t :: ts => by
    rw [List.foldl_cons]
    have : termStep idxB docs lex idf total extF levelF none t = none := rfl
    rw [this, termFold_none idxB docs lex idf total extF levelF ts]

/-- Folding one whole posting list through the posting loop completes a
round. -/
theorem postingFold_Jmid {K : Type} [LinearOrderedCommRing K]
    (docs : List (Nat × ReadDoc)) (idfv : K) (extF levelF : Option (List Char)) (r : Nat) :
    ∀ (ps : List Posting) (acc0 acc : ScoreAcc K),
      (ps.map Posting.doc_id).Pairwise (· < ·) →
      Jmid r acc0 (ps.map Posting.doc_id) →
      ps.foldl (postingStep docs idfv extF levelF) (some acc0) = some acc →
      Jmid r acc []
  | [], acc0, acc => by
    intro _ hJ hf
    obtain rfl : acc0 = acc := by simpa using hf
    simpa using hJ
  | p :: ps, acc0, acc => by
    intro hasc hJ hf
    rw [List.foldl_cons] at hf
    cases hstep : postingStep docs idfv extF levelF (some acc0) p with
    | none =>
      rw [hstep, postingFold_none docs idfv extF levelF ps] at hf
      exact absurd hf (by simp)
    | some acc1 =>
      rw [hstep] at hf
      rw [List.map_cons, List.pairwise_cons] at hasc
      exact postingFold_Jmid docs idfv extF levelF r ps acc1 acc hasc.2
        (postingStep_Jmid docs idfv extF levelF r p (ps.map Posting.doc_id) acc0 acc1
          hstep hasc.1 (by simpa using hJ)) hf

/-- Folding the term list through the term loop: each found term completes a
round, so the between-round invariant holds at the end for some round count
bounded by the number of terms. -/
theorem termFold_Brounds {K : Type} [LinearOrderedCommRing K]
    (idxB : List Nat) (docs : List (Nat × ReadDoc)) (lex : List (List Char × Nat × Nat))
    (idf : Nat → Nat → K) (total : Nat) (extF levelF : Option (List Char)) :
    ∀ (ts : List (List Char)) (acc0 : ScoreAcc K) (r0 : Nat) (acc : ScoreAcc K),
      Brounds r0 acc0 →
      (∀ t ∈ ts, ∀ e, dictGet? lex t = some e → ∀ ps, get_postings idxB e.2 e.1 = some ps →
        (ps.map Posting.doc_id).Pairwise (· < ·)) →
      ts.foldl (termStep idxB docs lex idf total extF levelF) (some acc0) = some acc →
      ∃ r, r0 ≤ r ∧ r ≤ r0 + ts.length ∧ Brounds r acc
  | [], acc0, r0, acc => by
    intro hB _ hf
    obtain rfl : acc0 = acc := by simpa using hf
    exact ⟨r0, le_refl _, by simp, hB⟩
  | t :: ts, acc0, r0, acc => by
    intro hB hasc hf
    rw [List.foldl_cons] at hf
    cases hlx : dictGet? lex t with
    | none =>
      have hid : termStep idxB docs lex idf total extF levelF (some acc0) t = some acc0 := by
        simp only [termStep, hlx]
      rw [hid] at hf
      obtain ⟨r, hr1, hr2, hBr⟩ := termFold_Brounds idxB docs lex idf total extF levelF
        ts acc0 r0 acc hB (fun u hu => hasc u (List.mem_cons_of_mem t hu)) hf
      exact ⟨r, hr1, by simp only [List.length_cons]; omega, hBr⟩
    | some e =>
      cases hgp : get_postings idxB e.2 e.1 with
      | none =>
        have hid : termStep idxB docs lex idf total extF levelF (some acc0) t = none := by
          simp only [termStep, hlx, hgp]
        rw [hid, termFold_none idxB docs lex idf total extF levelF ts] at hf
        exact absurd hf (by simp)
      | some ps =>
        have hid : termStep idxB docs lex idf total extF levelF (some acc0) t
            = ps.foldl (postingStep docs (idf total e.1) extF levelF) (some acc0) := by
          simp only [termStep, hlx, hgp]
        rw [hid] at hf
        cases hpf : ps.foldl (postingStep docs (idf total e.1) extF levelF) (some acc0) with
        | none =>
          rw [hpf, termFold_none idxB docs lex idf total extF levelF ts] at hf
          exact absurd hf (by simp)
        | some acc1 =>
          rw [hpf] at hf
          have hps : (ps.map Posting.doc_id).Pairwise (· < ·) :=
            hasc t (List.mem_cons_self t ts) e hlx ps hgp
          have hJ1 : Jmid r0 acc1 [] :=
            postingFold_Jmid docs (idf total e.1) extF levelF r0 ps acc0 acc1 hps
              (Brounds_to_Jmid r0 acc0 (ps.map Posting.doc_id) hB) hpf
          obtain ⟨r, hr1, hr2, hBr⟩ := termFold_Brounds idxB docs lex idf total extF levelF
            ts acc1 (r0 + 1) acc (Jmid_to_Brounds r0 acc1 hJ1)
            (fun u hu => hasc u (List.mem_cons_of_mem t hu)) hf
          exact ⟨r, by omega, by simp only [List.length_cons]; omega, hBr⟩



/-- The scoring loop yields an accumulator satisfying the between-round
invariant at some round count bounded by the number of query terms. -/
theorem scoreTerms_Brounds {K : Type} [LinearOrderedCommRing K]
    (idxB : List Nat) (docs : List (Nat × ReadDoc)) (lex : List (List Char × Nat × Nat))
    (idf : Nat → Nat → K) (extF levelF : Option (List Char)) (terms : List (List Char))
    (acc : ScoreAcc K)
    (hacc : scoreTerms idxB docs lex idf extF levelF terms = some acc)
    (hasc : ∀ t ∈ terms, ∀ e, dictGet? lex t = some e →
      ∀ ps, get_postings idxB e.2 e.1 = some ps →
        (ps.map Posting.doc_id).Pairwise (· < ·)) :
    ∃ r, r ≤ terms.length ∧ Brounds r acc := by
  rw [scoreTerms] at hacc
  obtain ⟨r, hr1, hr2, hB⟩ := termFold_Brounds idxB docs lex idf
    ((docs.map Prod.fst).dedup.length) extF levelF terms [] 0 acc
    ⟨List.nodup_nil, by simp, by simp⟩ hasc hacc
  exact ⟨r, by omega, hB⟩

/-- The AND-reduced qualifying list has strictly ascending doc ids. -/
theorem qualList_fst_pairwise {K : Type} [LinearOrderedCommRing K]
    (terms : List (List Char)) (acc : ScoreAcc K) (r : Nat)
    (hr : r ≤ terms.length) (hB : Brounds r acc) :
    (qualList terms.length acc).Pairwise fun a b => a.1 < b.1 := by
  rw [qualList, List.pairwise_map]
  rcases Nat.lt_or_ge r terms.length with hlt | hge
  · have hnil : acc.filter (fun e => decide (e.2.2 = terms.length)) = [] := by
      rw [List.filter_eq_nil_iff]
      intro e he
      have := (hB.2.1 e he).2
      simp only [decide_eq_true_eq]
      omega
    rw [hnil]
    exact List.Pairwise.nil
  · have hreq : r = terms.length := by omega
    subst hreq
    have := hB.2.2
    rwa [List.pairwise_map] at this

/-- Inserting an element whose doc id is below everything in an already
rank-ordered list keeps the list rank-ordered. -/
theorem insertLe_rankRel {K : Type} [LinearOrderedCommRing K] (a : Nat × K) :
    ∀ l : List (Nat × K), l.Pairwise rankRel → (∀ b ∈ l, a.1 < b.1) →
      (insertLe rankLe a l).Pairwise rankRel
  | [], _, _ => List.pairwise_singleton _ _
  | b :: t, hl, ha => by
    rw [insertLe]
    by_cases hle : rankLe a b = true
    · rw [if_pos hle]
      rw [List.pairwise_cons]
      refine ⟨?_, hl⟩
      intro y hy
      have hba : b.2 ≤ a.2 := by simpa [rankLe] using hle
      have hy2 : y.2 ≤ a.2 := by
        rcases List.mem_cons.mp hy with rfl | hyt
        · exact hba
        · rcases (List.pairwise_cons.mp hl).1 y hyt with h | ⟨h, _⟩
          · exact le_trans (le_of_lt h) hba
          · exact le_trans (le_of_eq h) hba
      rcases lt_or_eq_of_le hy2 with h | h
      · exact Or.inl h
      · exact Or.inr ⟨h, ha y hy⟩
    · rw [if_neg hle]
      rw [List.pairwise_cons] at hl ⊢
      refine ⟨?_, insertLe_rankRel a t hl.2 fun c hc => ha c (List.mem_cons_of_mem b hc)⟩
      intro y hy
      have hmem : y ∈ a :: t := (insertLe_perm rankLe a t).mem_iff.mp hy
      rcases List.mem_cons.mp hmem with hya | hyt
      · rw [hya]
        refine Or.inl ?_
        have hnb : ¬ b.2 ≤ a.2 := by simpa [rankLe] using hle
        exact lt_of_not_le hnb
      · exact hl.1 y hyt

/-- Sorting a list with strictly ascending doc ids by descending score is a
stable sort: the result is ordered by descending score with ties broken by
ascending doc id. -/
theorem insSort_rankRel {K : Type} [LinearOrderedCommRing K] :
    ∀ l : List (Nat × K), (l.Pairwise fun a b => a.1 < b.1) →
      (insSort rankLe l).Pairwise rankRel
  | [], _ => List.Pairwise.nil
  | a :: t, hl => by
    rw [insSort]
    rw [List.pairwise_cons] at hl
    refine insertLe_rankRel a (insSort rankLe t) (insSort_rankRel t hl.2) ?_
    intro b hb
    exact hl.1 b ((insSort_perm rankLe t).mem_iff.mp hb)



/-- C4: for every index whose fetched posting lists are strictly ascending by
doc_id (as the indexer writes them) and every query, a printed result list is
exactly the AND-reduced qualifying documents, ordered by descending
accumulated score with ties broken by ascending doc_id, and only the first
(at most) 10 of them are displayed, in that order. -/
theorem C4_ranked_results {K : Type} [LinearOrderedCommRing K]
    (dB lB iB : List Nat) (idf : Nat → Nat → K) (extF levelF : Option (List Char))
    (terms : List (List Char)) (rs : List (Nat × K))
    (docs : List (Nat × ReadDoc)) (lex : List (List Char × Nat × Nat)) (acc : ScoreAcc K)
    (hrun : runSearch dB lB iB idf extF levelF terms = SOutcome.printed rs)
    (hdocs : read_docs dB = some docs)
    (hlex : read_lexicon lB = some lex)
    (hacc : scoreTerms iB docs lex idf extF levelF terms = some acc)
    (hasc : ∀ t ∈ terms, ∀ e, dictGet? lex t = some e →
      ∀ ps, get_postings iB e.2 e.1 = some ps →
        (ps.map Posting.doc_id).Pairwise (· < ·)) :
    rs.Perm (qualList terms.length acc) ∧
    rs.Pairwise rankRel ∧
    displayed (SOutcome.printed rs) = rs.take 10 ∧
    (displayed (SOutcome.printed rs : SOutcome K)).length ≤ 10 := by
  rw [runSearch, hdocs] at hrun
  simp only [] at hrun
  rw [hlex] at hrun
  simp only [] at hrun
  by_cases hti : terms = []
  · rw [if_pos hti] at hrun
    exact absurd hrun (by simp)
  · rw [if_neg hti, hacc] at hrun
    simp only [] at hrun
    have hrs : rs = insSort rankLe (qualList terms.length acc) :=
      (SOutcome.printed.injEq _ _ ▸ hrun : _).symm
    obtain ⟨r, hr, hB⟩ := scoreTerms_Brounds iB docs lex idf extF levelF terms acc hacc hasc
    have hq := qualList_fst_pairwise terms acc r hr hB
    refine ⟨?_, ?_, ?_, ?_⟩
    · rw [hrs]; exact insSort_perm _ _
    · rw [hrs]; exact insSort_rankRel _ hq
    · rfl
    · rw [displayed, List.length_take]; exact min_le_left _ _

theorem C4_witness :
    ([(1, (3 : Int))] : List (Nat × Int)).Perm
      (qualList 2 [(1, (3 : Int), 2)]) ∧
    ([(1, (3 : Int))] : List (Nat × Int)).Pairwise rankRel ∧
    displayed (SOutcome.printed [(1, (3 : Int))]) =
      ([(1, (3 : Int))] : List (Nat × Int)).take 10 ∧
    (displayed (SOutcome.printed [(1, (3 : Int))] : SOutcome Int)).length ≤ 10 :=
  C4_ranked_results exArt.1 exArt.2.2 exArt.2.1 idfZ none none
    ["def".toList, "foo".toList] [(1, 3)]
    [(1, ⟨1, 0, "a.py".toList⟩)] [("def".toList, 1, 0), ("foo".toList, 1, 17)]
    [(1, 3, 2)]
    (by decide) (by decide) (by decide) (by decide)
    (by
      intro t ht e he ps hps
      have ht2 : t = "def".toList ∨ t = "foo".toList := by simpa using ht
      rcases ht2 with rfl | rfl
      · have hd : dictGet? [("def".toList, ((1 : Nat), (0 : Nat))),
            ("foo".toList, (1, 17))] "def".toList = some (1, 0) := by decide
        rw [hd] at he
        obtain rfl := Option.some_inj.mp he
        have hg : get_postings exArt.2.1 0 1 = some [⟨1, 1, 0, 1⟩] := by decide
        rw [hg] at hps
        obtain rfl := Option.some_inj.mp hps
        decide
      · have hd : dictGet? [("def".toList, ((1 : Nat), (0 : Nat))),
            ("foo".toList, (1, 17))] "foo".toList = some (1, 17) := by decide
        rw [hd] at he
        obtain rfl := Option.some_inj.mp he
        have hg : get_postings exArt.2.1 17 1 = some [⟨1, 2, 2, 1⟩] := by decide
        rw [hg] at hps
        obtain rfl := Option.some_inj.mp hps
        decide)

end DevScope
